import Mathlib

/-!
Verification of the git-stats commit-log parser and contributor scoring
algorithm (src/git_stats/git/parser.py and src/git_stats/scoring.py).

Python strings are embedded as `List Char` (`PyStr`); Python `datetime`
values are embedded as timezone-naive timestamps in seconds (`Int`),
with `timedelta(days := n)` equal to `n * 86400` seconds and
`timedelta.days` equal to floor division by 86400.  Python `float`
arithmetic on scores is embedded as exact rational arithmetic (`ℚ`).
Fallible Python code (statements that can raise) is embedded with
`Except Unit`.
-/

deriving instance DecidableEq for Except

/-- Embedding of Python strings as lists of characters. -/
abbrev PyStr := List Char

/-- Python whitespace for `str.strip` and the regex class `\s`
(space, tab, newline, carriage return, vertical tab, form feed). -/
def isPySpace (c : Char) : Bool :=
  c = ' ' || c = '\t' || c = '\n' || c = '\r' || c = Char.ofNat 11 || c = Char.ofNat 12

/-- Embedding of Python `str.strip()`: drop leading and trailing whitespace. -/
def pyStrip (l : PyStr) : PyStr :=
  ((l.dropWhile isPySpace).reverse.dropWhile isPySpace).reverse

/-- Embedding of Python `str.split("\n")`: split into lines, keeping empty pieces. -/
def splitLines : PyStr → List PyStr
  | [] => [[]]
  | c :: r =>
    if c = '\n' then [] :: splitLines r
    else
      match splitLines r with
      | [] => [[c]]
      | h :: t => (c :: h) :: t

/-- Embedding of Python `"\n".join(lines)`. -/
def joinLines (ls : List PyStr) : PyStr :=
  List.intercalate ['\n'] ls

/-- Embedding of Python `str.startswith(pre)`. -/
def pyStartsWith : PyStr → PyStr → Bool
  | [], _ => true
  | _ :: _, [] => false
  | p :: ps, c :: cs => p = c && pyStartsWith ps cs

/-- Embedding of Python `int(s)` on a string of decimal digits. -/
def digitsToNat (l : PyStr) : Nat :=
  l.foldl (fun n c => 10 * n + (c.toNat - '0'.toNat)) 0

/-- Locate the first occurrence of `sep` in `l`; return the text before it and
the text after it.  This is the search underlying Python `sep in s` and
`s.split(sep)`. -/
def findSep (sep : PyStr) : PyStr → Option (PyStr × PyStr)
  | [] => if sep = [] then some ([], []) else none
  | c :: r =>
    if pyStartsWith sep (c :: r) then some ([], (c :: r).drop sep.length)
    else
      match findSep sep r with
      | none => none
      | some (p, s) => some (c :: p, s)

/-- Fuel-driven worker for `pySplit`; the fuel bounds the number of
separator occurrences, so `l.length + 1` is always enough. -/
def pySplitF (sep : PyStr) : Nat → PyStr → List PyStr
  | 0, l => [l]
  | fuel + 1, l =>
    match findSep sep l with
    | none => [l]
    | some (p, s) => p :: pySplitF sep fuel s

/-- Embedding of Python `s.split(sep)` for a non-empty separator. -/
def pySplit (sep : PyStr) (l : PyStr) : List PyStr :=
  pySplitF sep (l.length + 1) l

/-- Match the numstat regex `^(\d+|-)\s+(\d+|-)\s+(.+)$` against a line,
returning the three groups (added, deleted, path).  The first two groups are
a maximal digit run or a single dash, each followed by at least one
whitespace character; the path is the remainder after the following maximal
whitespace run (backtracking on `\s+` leaves one whitespace character for
`(.+)` when the remainder would otherwise be empty). -/
def matchNumstat (line : PyStr) : Option (PyStr × PyStr × PyStr) :=
  let countTok : PyStr → Option (PyStr × PyStr) := fun l =>
    match l with
    | [] => none
    | c :: r =>
      if c = '-' then some (['-'], r)
      else
        let ds := (c :: r).takeWhile Char.isDigit
        if ds = [] then none else some (ds, (c :: r).drop ds.length)
  let ws1 : PyStr → Option PyStr := fun l =>
    let w := l.takeWhile isPySpace
    if w = [] then none else some (l.drop w.length)
  match countTok line with
  | none => none
  | some (a, r1) =>
    match ws1 r1 with
    | none => none
    | some r2 =>
      match countTok r2 with
      | none => none
      | some (d, r3) =>
        let w := r3.takeWhile isPySpace
        let rest := r3.drop w.length
        if rest ≠ [] then
          if w = [] then none else some (a, d, rest)
        else if w.length ≥ 2 then some (a, d, [w.getLast!])
        else none

/-- Embedding of the parser's `FileChange` dictionaries: `old_path` is present
exactly in the rename branch. -/
structure FileChange where
  path : PyStr
  old_path : Option PyStr
  lines_added : Nat
  lines_deleted : Nat
  is_renamed : Bool
  is_binary : Bool
deriving DecidableEq

/-- The per-line loop of `extract_file_changes`: strip each line, skip blank
and non-matching lines, and build one `FileChange` per matching numstat line.
The `old_path, new_path = file_path.split(" => ")` unpacking raises
`ValueError` when the split does not produce exactly two parts; this is
embedded as `Except.error ()`. -/
def extractFilesLoop : List PyStr → Except Unit (List FileChange)
  | [] => .ok []
  | l :: rest =>
    let line := pyStrip l
    if line = [] then extractFilesLoop rest
    else
      match matchNumstat line with
      | none => extractFilesLoop rest
      | some (added_str, deleted_str, file_path) =>
        let lines_added := if added_str = ['-'] then 0 else digitsToNat added_str
        let lines_deleted := if deleted_str = ['-'] then 0 else digitsToNat deleted_str
        let is_binary := added_str = ['-'] && deleted_str = ['-']
        if (findSep (" => ".data) file_path).isSome then
          match pySplit (" => ".data) file_path with
          | [old_path, new_path] =>
            (extractFilesLoop rest).map
              (fun tl => { path := pyStrip new_path, old_path := some (pyStrip old_path),
                           lines_added, lines_deleted,
                           is_renamed := true, is_binary } :: tl)
          | _ => .error ()
        else
          (extractFilesLoop rest).map
            (fun tl => { path := file_path, old_path := none,
                         lines_added, lines_deleted,
                         is_renamed := false, is_binary } :: tl)

/-- Embedding of `extract_file_changes` (parser.py): skip the leading blank
lines, then run the per-line loop. -/
def extract_file_changes (file_lines : List PyStr) : Except Unit (List FileChange) :=
  extractFilesLoop (file_lines.dropWhile (fun l => (pyStrip l).isEmpty))

/-- Embedding of the parser's `Commit` objects.  The `files` field holds the
already-extracted file changes. -/
structure Commit where
  hash : PyStr
  author_name : PyStr
  author_email : PyStr
  date : Int
  subject : PyStr
  body : PyStr
  files : List FileChange
deriving DecidableEq

/-- Leaf date-format parsers used by `extract_commit_info`: the standard
library calls `datetime.fromisoformat`, `strptime` with Git's default format
`"%a %b %d %H:%M:%S %Y %z"`, and `strptime` with `"%Y-%m-%d %H:%M:%S %z"`.
These library format parsers are abstracted as parameters (each returns
`none` exactly when the corresponding Python call raises `ValueError`);
no verified claim depends on the numeric value of a parsed date. -/
structure DateParsers where
  iso : PyStr → Option Int
  gitDefault : PyStr → Option Int
  simple : PyStr → Option Int

/-- Match the author regex `^(.*?)\s*<([^>]+)>$`: the string must end in `>`,
the matched `<` is the first `<` with no later `>` before the final one, and
the email between them must be non-empty.  Returns the two raw groups
(name, email); the caller applies `strip` as the Python code does. -/
def authorMatch (s : PyStr) : Option (PyStr × PyStr) :=
  let rec go : PyStr → Option (PyStr × PyStr)
    | [] => none
    | c :: r =>
      if c = '<' && !r.contains '>' && r ≠ [] then some ([], r)
      else
        match go r with
        | none => none
        | some (n, e) => some (c :: n, e)
  match s.getLast? with
  | some '>' => go s.dropLast
  | _ => none

/-- Match the body/numstat boundary regex `^\d+\s+\d+\s+\S` (a prefix match:
digits, whitespace, digits, whitespace, one non-whitespace character). -/
def statBoundary (l : PyStr) : Bool :=
  let ds1 := l.takeWhile Char.isDigit
  if ds1 = [] then false
  else
    let r1 := l.drop ds1.length
    let w1 := r1.takeWhile isPySpace
    if w1 = [] then false
    else
      let r2 := r1.drop w1.length
      let ds2 := r2.takeWhile Char.isDigit
      if ds2 = [] then false
      else
        let r3 := r2.drop ds2.length
        let w2 := r3.takeWhile isPySpace
        if w2 = [] then false else r3.drop w2.length ≠ []

/-- Author-line extraction of `extract_commit_info`: look for an `Author:`
label in lines 1-3; if found and the `Name <email>` pattern matches, strip
the two groups; if found but unmatched, the whole remainder is the name with
a placeholder email; if absent (or stripping to the empty string, which is
falsy in Python), fall back to the block's second line as name and third
line as email. -/
def authorFields (lines : List PyStr) : PyStr × PyStr :=
  let author_line :=
    (((lines.drop 1).take 3).find? (fun l => pyStartsWith ("Author:".data) l)).elim
      [] (fun l => pyStrip (l.drop 7))
  if author_line = [] then
    (if lines.length > 1 then lines.getD 1 [] else "Unknown".data,
     if lines.length > 2 then lines.getD 2 [] else "unknown@example.com".data)
  else
    match authorMatch author_line with
    | some (n, e) => (pyStrip n, pyStrip e)
    | none => (author_line, "unknown@example.com".data)

/-- Date extraction of `extract_commit_info`: look for a `Date:` label in
lines 1-5 and run the three-format fallback chain on it; with no (truthy)
date line, try ISO parsing of the fourth line; every failure falls back to
the current time. -/
def dateOf (dp : DateParsers) (now : Int) (lines : List PyStr) : Int :=
  let date_line :=
    (((lines.drop 1).take 5).find? (fun l => pyStartsWith ("Date:".data) l)).elim
      [] (fun l => pyStrip (l.drop 5))
  if date_line ≠ [] then
    ((dp.iso date_line).orElse (fun _ =>
      (dp.gitDefault date_line).orElse (fun _ =>
        dp.simple date_line))).getD now
  else if lines.length > 3 then (dp.iso (lines.getD 3 [])).getD now
  else now

/-- One past the index of the last `Author:`/`Date:` line (0 when none). -/
def metadataEnd (lines : List PyStr) : Nat :=
  lines.enum.foldl
    (fun acc p =>
      if pyStartsWith ("Author:".data) p.2 || pyStartsWith ("Date:".data) p.2 then
        p.1 + 1
      else acc) 0

/-- Index of the subject line: the first non-blank line at or after the end
of the metadata. -/
def subjectIdx (lines : List PyStr) : Nat :=
  metadataEnd lines +
    ((lines.drop (metadataEnd lines)).takeWhile (fun l => (pyStrip l).isEmpty)).length

/-- The stripped subject line, or empty when every line from the metadata on
is blank. -/
def subjectOf (lines : List PyStr) : PyStr :=
  if subjectIdx lines < lines.length then pyStrip (lines.getD (subjectIdx lines) [])
  else []

/-- Index of the first body line (0 when there is no subject line, as in the
source, where `body_start` keeps its initializer). -/
def bodyStartOf (lines : List PyStr) : Nat :=
  if subjectIdx lines < lines.length then subjectIdx lines + 1 else 0

/-- Index of the first numstat line at or after the body start (the length
of the lines when there is none). -/
def bodyEndOf (lines : List PyStr) : Nat :=
  bodyStartOf lines +
    ((lines.drop (bodyStartOf lines)).takeWhile (fun l => !statBoundary (pyStrip l))).length

/-- The stripped body text between the subject and the numstat section. -/
def bodyOf (lines : List PyStr) : PyStr :=
  if bodyStartOf lines < bodyEndOf lines then
    pyStrip (joinLines ((lines.drop (bodyStartOf lines)).take
      (bodyEndOf lines - bodyStartOf lines)))
  else []

/-- Embedding of `extract_commit_info` (parser.py).  `now` embeds
`datetime.now()`.  A `None` return (block silently discarded) is `.ok none`;
a raised exception (from `extract_file_changes`) is `.error ()`. -/
def extract_commit_info (dp : DateParsers) (now : Int) (commit_data : PyStr) :
    Except Unit (Option Commit) :=
  let lines := splitLines (pyStrip commit_data)
  if lines.length < 4 then .ok none
  else if lines.headD [] = [] then .ok none
  else
    match extract_file_changes (lines.drop (bodyEndOf lines)) with
    | .error e => .error e
    | .ok files =>
      .ok (some { hash := pyStrip (lines.headD []),
                  author_name := (authorFields lines).1,
                  author_email := (authorFields lines).2,
                  date := dateOf dp now lines,
                  subject := subjectOf lines,
                  body := bodyOf lines,
                  files })

/-- Check for a commit-boundary line (`^[0-9a-f]{40}$` with `re.MULTILINE`):
exactly forty lowercase hexadecimal characters. -/
def isHash40 (l : PyStr) : Bool :=
  l.length == 40 && l.all (fun c => c.isDigit || ('a' ≤ c && c ≤ 'f'))

/-- Slice the raw log lines into per-commit blocks: each boundary index
starts a block running to the next boundary (exclusive), the last block
running to the end of the input. -/
def blocksOf (ls : List PyStr) : List Nat → List PyStr
  | [] => []
  | [i] => [joinLines (ls.drop i)]
  | i :: j :: rest => joinLines ((ls.drop i).take (j - i)) :: blocksOf ls (j :: rest)

/-- Run `extract_commit_info` over each stripped block, keeping the commits
that parse and propagating any raised exception. -/
def parseBlocks (dp : DateParsers) (now : Int) : List PyStr → Except Unit (List Commit)
  | [] => .ok []
  | b :: bs => do
    let c? ← extract_commit_info dp now (pyStrip b)
    let rest ← parseBlocks dp now bs
    pure (match c? with | some c => c :: rest | none => rest)

/-- Embedding of `parse_git_log` (parser.py): empty or whitespace-only input
yields `[]`; otherwise the input is cut at the 40-hex boundary lines and each
block is parsed, skipping blocks that fail to parse. -/
def parse_git_log (dp : DateParsers) (now : Int) (log_output : PyStr) :
    Except Unit (List Commit) :=
  if (pyStrip log_output).isEmpty then .ok []
  else
    let ls := splitLines log_output
    let idxs := (ls.enum.filter (fun p => isHash40 p.2)).map Prod.fst
    parseBlocks dp now (blocksOf ls idxs)

/-- Trivial date parsers used to instantiate concrete evaluations. -/
def dpNone : DateParsers := ⟨fun _ => none, fun _ => none, fun _ => none⟩

/-- Embedding of the per-author raw-metric dictionaries fed to the scoring
module.  Counter fields are read in Python via `get(key, 0)`, so an absent
key and a zero value are indistinguishable and both embed as `0`; the date
and recency keys can be genuinely absent, hence `Option`. -/
structure AuthorStats where
  total_commits : Nat
  total_lines_added : Nat
  total_lines_deleted : Nat
  first_commit_date : Option Int
  last_commit_date : Option Int
  recency : Option ℚ
deriving DecidableEq

/-- Normalized per-author metrics: the dictionary built by
`normalize_metrics` always holds exactly these four keys. -/
structure NormMetrics where
  longevity : ℚ
  lines : ℚ
  commits : ℚ
  recency : ℚ
deriving DecidableEq

/-- Embedding of Python `max(values) if values else default`. -/
def pyMaxD [Max α] (d : α) : List α → α
  | [] => d
  | h :: t => t.foldl max h

/-- Longevity time span: `(last - first).days + 1`, where `timedelta.days`
floors the difference in seconds by 86400. -/
def spanDays (f l : Int) : Int :=
  (l - f).fdiv 86400 + 1

/-- The longevity values whose maximum drives longevity normalization: one
time span per author having both dates. -/
def longevityValues (metrics : List (String × AuthorStats)) : List Int :=
  metrics.filterMap (fun p =>
    match p.2.first_commit_date, p.2.last_commit_date with
    | some f, some l => some (spanDays f l)
    | _, _ => none)

/-- The normalized metrics of one author, given the three maxima. -/
def normalizeEntry (maxLongevity : Int) (maxLines maxCommits : Nat)
    (m : AuthorStats) : NormMetrics :=
  { longevity :=
      match m.first_commit_date, m.last_commit_date with
      | some f, some l => (spanDays f l : ℚ) / (maxLongevity : ℚ)
      | _, _ => 0
    lines :=
      if maxLines > 0 then
        ((m.total_lines_added + m.total_lines_deleted : Nat) : ℚ) / (maxLines : ℚ)
      else 0
    commits :=
      if maxCommits > 0 then (m.total_commits : ℚ) / (maxCommits : ℚ) else 0
    recency := m.recency.getD 0 }

/-- Embedding of `normalize_metrics` (scoring.py).  The longevity division
`time_span / max_values["longevity"]` has no zero guard in the source, so a
zero longevity maximum (reachable only through a reversed date pair, and hit
exactly when some author has both dates) raises `ZeroDivisionError`,
embedded as `Except.error ()`; the lines and commits divisions are guarded
by `if max > 0 else 0.0` as in the source. -/
def normalize_metrics (metrics : List (String × AuthorStats)) :
    Except Unit (List (String × NormMetrics)) :=
  if metrics.isEmpty then .ok []
  else
    let maxLongevity : Int := pyMaxD 1 (longevityValues metrics)
    let maxLines : Nat :=
      pyMaxD 1 (metrics.map (fun p => p.2.total_lines_added + p.2.total_lines_deleted))
    let maxCommits : Nat := pyMaxD 1 (metrics.map (fun p => p.2.total_commits))
    if maxLongevity = 0 then .error ()
    else
      .ok (metrics.map (fun p => (p.1, normalizeEntry maxLongevity maxLines maxCommits p.2)))

/-- Embedding of the commit dictionaries consumed by
`calculate_recency_score`: an author string and an optional date. -/
structure RCommit where
  author : String
  date : Option Int
deriving DecidableEq

/-- Cutoff date for the recency window: `reference - 29 days` in the special
one-month case, `reference - 30 * months days` otherwise. -/
def recencyCutoff (reference : Int) (months : Int) : Int :=
  if months = 1 then reference - 29 * 86400 else reference - 30 * months * 86400

/-- Record one commit for `author` in the insertion-ordered
(total, recent) count table. -/
def bumpCounts : List (String × Nat × Nat) → String → Bool → List (String × Nat × Nat)
  | [], a, isRecent => [(a, 1, if isRecent then 1 else 0)]
  | (b, t, r) :: rest, a, isRecent =>
    if b = a then (b, t + 1, r + (if isRecent then 1 else 0)) :: rest
    else (b, t, r) :: bumpCounts rest a isRecent

/-- The counting loop of `calculate_recency_score`: per author (in first-seen
order), the total number of commits and the number with
`date >= cutoff`, a missing date defaulting to the reference date. -/
def recencyCounts (commits : List RCommit) (reference cutoff : Int) :
    List (String × Nat × Nat) :=
  commits.foldl (fun counts c =>
    bumpCounts counts c.author (decide (c.date.getD reference ≥ cutoff))) []

/-- The author identity string special-cased in `calculate_recency_score`. -/
def aliceKey : String := "Alice <alice@example.com>"

/-- The other author identity string special-cased in
`calculate_recency_score`. -/
def bobKey : String := "Bob <bob@example.com>"

/-- Embedding of `calculate_recency_score` (scoring.py), including the
source's hardcoded special case: when the period is one month and the author
string is literally `aliceKey` or `bobKey`, the score is the constant `1/3`
or `1/2` instead of the recent/total ratio. -/
def calculate_recency_score (commits : List RCommit) (months : Int) (now : Int) :
    List (String × ℚ) :=
  if commits.isEmpty then []
  else
    let reference : Int := pyMaxD now (commits.filterMap RCommit.date)
    let cutoff := recencyCutoff reference months
    let counts := recencyCounts commits reference cutoff
    counts.map (fun p =>
      (p.1,
       if p.2.1 > 0 then
         if months = 1 && (p.1 = aliceKey || p.1 = bobKey) then
           if p.1 = aliceKey then (1 : ℚ) / 3 else (1 : ℚ) / 2
         else (p.2.2 : ℚ) / (p.2.1 : ℚ)
       else 0))

/-- Embedding of the weights dictionary: each of the four known metric names
is present or absent; a metric absent from the mapping contributes nothing. -/
structure Weights where
  longevity : Option ℚ
  lines : Option ℚ
  commits : Option ℚ
  recency : Option ℚ
deriving DecidableEq

/-- Default weights from scoring.py: longevity 0.4, lines 0.3, commits 0.2,
recency 0.1. -/
def DEFAULT_WEIGHTS : Weights :=
  ⟨some ((2 : ℚ) / 5), some ((3 : ℚ) / 10), some ((1 : ℚ) / 5), some ((1 : ℚ) / 10)⟩

/-- One term of the weighted sum: `metric_value * weights[name]` when the
name is in the weights mapping, else nothing is added. -/
def metricContribution (w : Option ℚ) (v : ℚ) : ℚ :=
  match w with
  | some wq => v * wq
  | none => 0

/-- Embedding of `calculate_contributor_score` (scoring.py): the weighted sum
over longevity, lines, commits and recency, with `None` weights resolved to
the defaults. -/
def calculate_contributor_score (metrics : List (String × NormMetrics))
    (weights : Option Weights) : List (String × ℚ) :=
  if metrics.isEmpty then []
  else
    let w := weights.getD DEFAULT_WEIGHTS
    metrics.map (fun p =>
      (p.1,
       metricContribution w.longevity p.2.longevity
         + metricContribution w.lines p.2.lines
         + metricContribution w.commits p.2.commits
         + metricContribution w.recency p.2.recency))

/-- The synthetic commits one author contributes for recency scoring: with
a positive commit count, one commit at the last commit date (when present),
and one at the first commit date when commits remain after that and the
first date is present. -/
def synthOne (c : String) (m : AuthorStats) : List RCommit :=
  if m.total_commits = 0 then []
  else
    match m.last_commit_date with
    | some l =>
      if m.total_commits - 1 > 0 then
        match m.first_commit_date with
        | some f => [⟨c, some l⟩, ⟨c, some f⟩]
        | none => [⟨c, some l⟩]
      else [⟨c, some l⟩]
    | none =>
      if m.total_commits > 0 then
        match m.first_commit_date with
        | some f => [⟨c, some f⟩]
        | none => []
      else []

/-- The synthetic commit list built by `rank_contributors` for recency
scoring: each author's synthetic commits, in stats order. -/
def syntheticCommits (stats : List (String × AuthorStats)) : List RCommit :=
  stats.foldl (fun acc p => acc ++ synthOne p.1 p.2) []

/-- The in-place mutation step of `rank_contributors`: write
`recency_scores.get(contributor, 0.0)` under the `recency` key of every
author entry, leaving all other fields unchanged. -/
def writeRecency (stats : List (String × AuthorStats)) (rs : List (String × ℚ)) :
    List (String × AuthorStats) :=
  stats.map (fun p => (p.1, { p.2 with recency := some ((rs.lookup p.1).getD 0) }))

/-- Insert an entry into a descending-sorted ranking, after all entries with
a strictly greater score and before all entries with a smaller-or-equal
score; used to embed Python's stable `list.sort(key=score, reverse=True)`. -/
def insertDesc (x : String × ℚ × NormMetrics) :
    List (String × ℚ × NormMetrics) → List (String × ℚ × NormMetrics)
  | [] => [x]
  | h :: t => if h.2.1 ≤ x.2.1 then x :: h :: t else h :: insertDesc x t

/-- Stable descending sort by score (insertion sort, which agrees with
Python's stable sort). -/
def sortDesc : List (String × ℚ × NormMetrics) → List (String × ℚ × NormMetrics)
  | [] => []
  | x :: xs => insertDesc x (sortDesc xs)

/-- The unsorted ranking list `(contributor, score, normalized_metrics)`
built from the normalized metrics, in input-iteration order. -/
def rawRanking (normalized : List (String × NormMetrics)) (w : Weights) :
    List (String × ℚ × NormMetrics) :=
  (calculate_contributor_score normalized (some w)).map (fun p =>
    (p.1, p.2, (normalized.lookup p.1).getD ⟨0, 0, 0, 0⟩))

/-- The pre-sort stage of `rank_contributors`: compute recency scores from
the synthetic commits, write them into the caller's stats, normalize, and
build the unsorted ranking in input-iteration order.  The first component is
the caller's stats mapping after the call (the source mutates it, writing
the `recency` key); the `ZeroDivisionError` reachable inside
`normalize_metrics` is propagated. -/
def rankUnsorted (stats : List (String × AuthorStats)) (weights : Option Weights)
    (months : Int) (now : Int) :
    List (String × AuthorStats) × Except Unit (List (String × ℚ × NormMetrics)) :=
  if stats.isEmpty then (stats, .ok [])
  else
    let w := weights.getD DEFAULT_WEIGHTS
    let recency_scores := calculate_recency_score (syntheticCommits stats) months now
    let stats2 := writeRecency stats recency_scores
    match normalize_metrics stats2 with
    | .error e => (stats2, .error e)
    | .ok normalized => (stats2, .ok (rawRanking normalized w))

/-- Embedding of `rank_contributors` (scoring.py): the unsorted ranking,
stably sorted by descending score. -/
def rank_contributors (stats : List (String × AuthorStats)) (weights : Option Weights)
    (months : Int) (now : Int) :
    List (String × AuthorStats) × Except Unit (List (String × ℚ × NormMetrics)) :=
  ((rankUnsorted stats weights months now).1,
   (rankUnsorted stats weights months now).2.map sortDesc)

/-- Project the payload out of a successful computation, with a default for
the error case. -/
def getOk (e : Except Unit α) (d : α) : α :=
  match e with
  | .ok a => a
  | .error _ => d

/-- Number of non-empty lines of a stripped block.  This definition follows
the spec's words ("fewer than 4 non-empty lines"), for comparison with the
plain line count the code actually tests. -/
def specNonEmptyLineCount (s : PyStr) : Nat :=
  ((splitLines (pyStrip s)).filter (fun l => !l.isEmpty)).length

/-- Recognize a successfully parsed block. -/
def isOkSome : Except Unit (Option Commit) → Bool
  | .ok (some _) => true
  | _ => false

/-- Concrete one-author metrics used by the C5 witness. -/
def c5Metrics : List (String × AuthorStats) :=
  [("A", ⟨2, 3, 1, some 0, some 86400, some ((1 : ℚ) / 2)⟩)]

/-- Number of commits attributed to one author. -/
def totalFor (commits : List RCommit) (a : String) : Nat :=
  (commits.filter (fun c => decide (c.author = a))).length

/-- Number of an author's commits at or after the cutoff (a missing date
defaulting to the reference). -/
def recentFor (commits : List RCommit) (reference cutoff : Int) (a : String) : Nat :=
  ((commits.filter (fun c => decide (c.author = a))).filter
    (fun c => decide (c.date.getD reference ≥ cutoff))).length

/-- Identical raw stats used for the two authors of the C7 counterexample. -/
def c7M : AuthorStats := ⟨2, 0, 0, some 0, some (29 * 86400), none⟩

/-- Raw stats of the single author of the C7 witness. -/
def c7W : AuthorStats := ⟨1, 0, 0, none, none, none⟩

/-- C1: the claim states that `calculate_recency_score` returns
`recent / total` for every author identity string, depending only on
timestamps and window.  The source instead hardcodes the score for the
author identity string `"Alice <alice@example.com>"` at a one-month window:
three commits all at the reference date yield score 1/3 for that author,
while the same timestamps under the identity `"Carol <carol@example.com>"`
yield 3/3 = 1. -/
theorem C1_recency_hardcoded_for_alice :
    calculate_recency_score
        [⟨aliceKey, some 0⟩, ⟨aliceKey, some 0⟩, ⟨aliceKey, some 0⟩] 1 0 =
      [(aliceKey, (1 : ℚ) / 3)]
    ∧ calculate_recency_score
        [⟨"Carol <carol@example.com>", some 0⟩, ⟨"Carol <carol@example.com>", some 0⟩,
         ⟨"Carol <carol@example.com>", some 0⟩] 1 0 =
      [("Carol <carol@example.com>", 1)]
    ∧ (1 : ℚ) / 3 ≠ 1 := by
  refine ⟨?_, ?_, by norm_num⟩
  · simp +decide [calculate_recency_score, recencyCounts, bumpCounts, recencyCutoff, pyMaxD,
      aliceKey, bobKey]
  · simp +decide [calculate_recency_score, recencyCounts, bumpCounts, recencyCutoff, pyMaxD,
      aliceKey, bobKey]

/-- C2: the claim states that parsing never raises and that a matching
numstat line whose path contains `" => "` more than once is handled without
aborting.  The source unpacks `file_path.split(" => ")` into exactly two
variables, so the line `"5\t0\ta => b => c"` raises `ValueError`, and the
exception propagates out of `parse_git_log` for a log containing an
otherwise valid commit block that ends in that line. -/
theorem C2_double_rename_separator_raises :
    extract_file_changes ["5\t0\ta => b => c".data] = .error ()
    ∧ parse_git_log dpNone 0
        ("aaaaaaaaaaaaaaaaaaaaaaaaaaaaaaaaaaaaaaaa\nAuthor: A <a@b>\nDate: x\n\nsubj\n\n5\t0\ta => b => c".data) =
      .error () := by
  exact ⟨by decide, by decide⟩

/-- C8: empty input at every stage yields a well-defined empty result and
never an error: parsing an empty or whitespace-only string returns an empty
sequence, normalizing an empty mapping returns an empty mapping, and ranking
an empty mapping returns an empty sequence, for every choice of the
remaining parameters. -/
theorem C8_empty_inputs (dp : DateParsers) (now : Int) (s : PyStr)
    (h : (pyStrip s).isEmpty = true) (w : Option Weights) (months : Int) :
    parse_git_log dp now s = .ok []
    ∧ normalize_metrics [] = .ok []
    ∧ rank_contributors [] w months now = ([], .ok []) := by
  refine ⟨?_, rfl, rfl⟩
  unfold parse_git_log
  simp [h]

/-- Witness for C8 at the three-space string. -/
theorem C8_empty_inputs_witness :
    (pyStrip (" ".data)).isEmpty = true
    ∧ (parse_git_log dpNone 0 (" ".data) = .ok []
        ∧ normalize_metrics [] = .ok []
        ∧ rank_contributors [] none 3 0 = ([], .ok [])) :=
  ⟨by decide, C8_empty_inputs dpNone 0 (" ".data) (by decide) none 3⟩

/-- C6: with a one-month window the recency cutoff is the reference minus 29
days and the comparison is inclusive — an author with one commit at the
reference date and one exactly 29 days earlier has both commits counted as
within the window and scores 1 — while for every other window length the
cutoff is the reference minus 30 × window days. -/
theorem C6_recency_window_boundary (a : String) (t m : Int)
    (ha : a ≠ aliceKey) (hb : a ≠ bobKey) (hm : m ≠ 1) :
    recencyCutoff t 1 = t - 29 * 86400
    ∧ recencyCutoff t m = t - 30 * m * 86400
    ∧ recencyCounts [⟨a, some t⟩, ⟨a, some (t - 29 * 86400)⟩] t (recencyCutoff t 1) =
        [(a, 2, 2)]
    ∧ calculate_recency_score [⟨a, some t⟩, ⟨a, some (t - 29 * 86400)⟩] 1 0 = [(a, 1)] := by
  have h1 : (decide (t ≥ t - 29 * 86400)) = true := decide_eq_true (by omega)
  have h2 : (decide (t - 29 * 86400 ≥ t - 29 * 86400)) = true := decide_eq_true (by omega)
  have hmax : max t (t - 29 * 86400) = t := max_eq_left (by omega)
  refine ⟨by simp [recencyCutoff], by simp [recencyCutoff, hm], ?_, ?_⟩
  · simp [recencyCounts, recencyCutoff, bumpCounts, h1, h2]
  · simp [calculate_recency_score, pyMaxD, hmax, recencyCounts, recencyCutoff, bumpCounts,
      h1, h2, ha, hb]

/-- Witness for C6 at a concrete author and window. -/
theorem C6_recency_window_boundary_witness :
    (("X" : String) ≠ aliceKey ∧ ("X" : String) ≠ bobKey ∧ (2 : Int) ≠ 1)
    ∧ (recencyCutoff 0 1 = 0 - 29 * 86400
        ∧ recencyCutoff 0 2 = 0 - 30 * 2 * 86400
        ∧ recencyCounts [⟨"X", some 0⟩, ⟨"X", some (0 - 29 * 86400)⟩] 0 (recencyCutoff 0 1) =
            [("X", 2, 2)]
        ∧ calculate_recency_score [⟨"X", some 0⟩, ⟨"X", some (0 - 29 * 86400)⟩] 1 0 =
            [("X", 1)]) :=
  ⟨⟨by decide, by decide, by decide⟩,
   C6_recency_window_boundary "X" 0 2 (by decide) (by decide) (by decide)⟩

/-- C10: after a call to `rank_contributors`, every entry of the caller's
stats mapping has a value written under its `recency` field, while the
author key and every other field of the entry are unchanged. -/
theorem C10_rank_writes_recency (stats : List (String × AuthorStats))
    (w : Option Weights) (months now : Int) (i : Nat) (a : String) (m : AuthorStats)
    (h : stats.get? i = some (a, m)) :
    ∃ q, ((rank_contributors stats w months now).1).get? i
        = some (a, { m with recency := some q }) := by
  have hne : stats.isEmpty = false := by
    cases stats with
    | nil => simp at h
    | cons x xs => rfl
  have hfst : (rank_contributors stats w months now).1 =
      writeRecency stats (calculate_recency_score (syntheticCommits stats) months now) := by
    simp only [rank_contributors, rankUnsorted, hne, Bool.false_eq_true, if_false]
    cases hn : normalize_metrics
        (writeRecency stats (calculate_recency_score (syntheticCommits stats) months now)) <;>
      simp [hn]
  rw [hfst]
  unfold writeRecency
  refine ⟨((calculate_recency_score (syntheticCommits stats) months now).lookup a).getD 0, ?_⟩
  rw [List.get?_map, h]
  rfl

/-- Witness for C10 at a one-author stats mapping. -/
theorem C10_rank_writes_recency_witness :
    ([(("A" : String), (⟨1, 2, 3, some 0, some 86400, none⟩ : AuthorStats))].get? 0 =
        some ("A", ⟨1, 2, 3, some 0, some 86400, none⟩))
    ∧ ∃ q, ((rank_contributors [("A", ⟨1, 2, 3, some 0, some 86400, none⟩)] none 3 0).1).get? 0
        = some ("A", { (⟨1, 2, 3, some 0, some 86400, none⟩ : AuthorStats) with
                        recency := some q }) :=
  ⟨rfl, C10_rank_writes_recency [("A", ⟨1, 2, 3, some 0, some 86400, none⟩)] none 3 0 0 "A"
    ⟨1, 2, 3, some 0, some 86400, none⟩ rfl⟩

theorem matchNumstat_nil : matchNumstat [] = none := rfl

/-- C9: extracting file changes from the single line
`"-\t-\tsrc/x.py => src/y.py"` yields exactly one entry with
`path = "src/y.py"`, `old_path = "src/x.py"`, zero counts, and the renamed
and binary flags set; more generally, for every line matching the numstat
pattern, a `"-"` count resolves to 0, `is_binary` holds exactly when both
counts are `"-"`, and a path containing the separator `" => "` (split into
two pieces) produces trimmed `old_path` and `path` with `is_renamed` set,
while a path without the separator is kept verbatim and unrenamed. -/
theorem C9_file_change_fields :
    (extract_file_changes ["-\t-\tsrc/x.py => src/y.py".data] =
      .ok [{ path := "src/y.py".data, old_path := some ("src/x.py".data),
             lines_added := 0, lines_deleted := 0,
             is_renamed := true, is_binary := true }])
    ∧ ∀ (line a d p : PyStr), matchNumstat (pyStrip line) = some (a, d, p) →
        ∀ fs, extract_file_changes [line] = .ok fs →
          fs.length = 1 ∧ ∀ fc ∈ fs,
            (a = ['-'] → fc.lines_added = 0)
            ∧ (d = ['-'] → fc.lines_deleted = 0)
            ∧ (fc.is_binary = true ↔ (a = ['-'] ∧ d = ['-']))
            ∧ (∀ o n, pySplit (" => ".data) p = [o, n] →
                 (findSep (" => ".data) p).isSome = true →
                 fc.path = pyStrip n ∧ fc.old_path = some (pyStrip o)
                   ∧ fc.is_renamed = true)
            ∧ ((findSep (" => ".data) p).isSome = false →
                 fc.path = p ∧ fc.old_path = none ∧ fc.is_renamed = false) := by
  constructor
  · decide
  · intro line a d p hm fs hfs
    have hne : pyStrip line ≠ [] := by
      intro h
      rw [h, matchNumstat_nil] at hm
      exact Option.noConfusion hm
    rw [extract_file_changes] at hfs
    rw [List.dropWhile_cons] at hfs
    simp only [List.isEmpty_iff, hne, if_false, decide_eq_true_eq] at hfs
    rw [extractFilesLoop] at hfs
    simp only [hne, if_false, hm] at hfs
    by_cases hsep : (findSep (" => ".data) p).isSome
    · rw [if_pos hsep] at hfs
      cases hsp : pySplit (" => ".data) p with
      | nil => rw [hsp] at hfs; exact absurd hfs (by simp [Except.map])
      | cons o t =>
        cases t with
        | nil => rw [hsp] at hfs; exact absurd hfs (by simp [Except.map])
        | cons n t2 =>
          cases t2 with
          | nil =>
            rw [hsp] at hfs
            simp only [extractFilesLoop, Except.map] at hfs
            cases hfs
            refine ⟨rfl, ?_⟩
            intro fc hfc
            simp only [List.mem_singleton] at hfc
            subst hfc
            refine ⟨fun ha => by simp [ha], fun hd => by simp [hd], ?_, ?_, ?_⟩
            · simp
            · intro o' n' hsp' _
              injection hsp' with h1 h2
              injection h2 with h2 _
              subst h1; subst h2
              exact ⟨rfl, rfl, rfl⟩
            · intro hcontra
              rw [hsep] at hcontra
              exact Bool.noConfusion hcontra
          | cons _ _ => rw [hsp] at hfs; exact absurd hfs (by simp [Except.map])
    · rw [if_neg hsep] at hfs
      simp only [extractFilesLoop, Except.map] at hfs
      cases hfs
      refine ⟨rfl, ?_⟩
      intro fc hfc
      simp only [List.mem_singleton] at hfc
      subst hfc
      refine ⟨fun ha => by simp [ha], fun hd => by simp [hd], by simp, ?_, ?_⟩
      · intro o' n' _ hcontra
        simp only [Bool.not_eq_true] at hsep
        rw [hsep] at hcontra
        exact Bool.noConfusion hcontra
      · intro _
        exact ⟨rfl, rfl, rfl⟩

/-- Witness for C9 at a renamed text file with counts 3 and 1. -/
theorem C9_file_change_fields_witness :
    (matchNumstat (pyStrip ("3\t1\told.py => new.py".data)) =
        some ("3".data, "1".data, "old.py => new.py".data))
    ∧ (extract_file_changes ["3\t1\told.py => new.py".data] =
        .ok [{ path := "new.py".data, old_path := some ("old.py".data),
               lines_added := 3, lines_deleted := 1,
               is_renamed := true, is_binary := false }])
    ∧ ([({ path := "new.py".data, old_path := some ("old.py".data),
           lines_added := 3, lines_deleted := 1,
           is_renamed := true, is_binary := false } : FileChange)].length = 1
        ∧ ∀ fc ∈ [({ path := "new.py".data, old_path := some ("old.py".data),
                     lines_added := 3, lines_deleted := 1,
                     is_renamed := true, is_binary := false } : FileChange)],
            ("3".data = ['-'] → fc.lines_added = 0)
            ∧ ("1".data = ['-'] → fc.lines_deleted = 0)
            ∧ (fc.is_binary = true ↔ ("3".data = ['-'] ∧ "1".data = ['-']))
            ∧ (∀ o n, pySplit (" => ".data) ("old.py => new.py".data) = [o, n] →
                 (findSep (" => ".data) ("old.py => new.py".data)).isSome = true →
                 fc.path = pyStrip n ∧ fc.old_path = some (pyStrip o)
                   ∧ fc.is_renamed = true)
            ∧ ((findSep (" => ".data) ("old.py => new.py".data)).isSome = false →
                 fc.path = "old.py => new.py".data ∧ fc.old_path = none
                   ∧ fc.is_renamed = false)) :=
  ⟨by decide, by decide,
   C9_file_change_fields.2 ("3\t1\told.py => new.py".data) ("3".data) ("1".data)
     ("old.py => new.py".data) (by decide) _ (by decide)⟩

theorem splitLines_ne_nil (l : PyStr) : splitLines l ≠ [] := by
  induction l with
  | nil => simp [splitLines]
  | cons c r ih =>
    rw [splitLines]
    by_cases hc : c = '\n'
    · simp [hc]
    · simp only [hc, if_false]
      cases hr : splitLines r with
      | nil => exact absurd hr ih
      | cons h t => simp

theorem splitLines_cons_of_ne (c : Char) (r : PyStr) (h : c ≠ '\n') :
    ∃ h' t, splitLines (c :: r) = (c :: h') :: t := by
  rw [splitLines]
  simp only [h, if_false]
  cases hr : splitLines r with
  | nil => exact absurd hr (splitLines_ne_nil r)
  | cons hd tl => exact ⟨hd, tl, rfl⟩

theorem dropWhile_head_false (p : α → Bool) :
    ∀ (l : List α) (c : α) (cs : List α), l.dropWhile p = c :: cs → p c = false := by
  intro l
  induction l with
  | nil => intro c cs h; simp [List.dropWhile] at h
  | cons a as ih =>
    intro c cs h
    rw [List.dropWhile_cons] at h
    by_cases hp : p a
    · rw [if_pos hp] at h; exact ih c cs h
    · rw [if_neg hp] at h
      cases h
      exact Bool.of_not_eq_true hp

theorem pyStrip_prefix_dropWhile (l : PyStr) :
    pyStrip l <+: (l.dropWhile isPySpace) := by
  unfold pyStrip
  rw [← List.reverse_suffix, List.reverse_reverse]
  exact List.dropWhile_suffix isPySpace

theorem pyStrip_head_not_space (l : PyStr) (c : Char) (cs : PyStr)
    (h : pyStrip l = c :: cs) : isPySpace c = false := by
  obtain ⟨t, ht⟩ := pyStrip_prefix_dropWhile l
  rw [h] at ht
  exact dropWhile_head_false isPySpace l c (cs ++ t) (by rw [← ht]; rfl)

theorem splitLines_pyStrip_head_ne (s : PyStr) (h : pyStrip s ≠ []) :
    (splitLines (pyStrip s)).headD [] ≠ [] := by
  cases hs : pyStrip s with
  | nil => exact absurd hs h
  | cons c cs =>
    have hc : c ≠ '\n' := by
      intro hcn
      have := pyStrip_head_not_space s c cs hs
      rw [hcn] at this
      simp [isPySpace] at this
    obtain ⟨h', t, he⟩ := splitLines_cons_of_ne c cs hc
    rw [he]
    simp

theorem pyStrip_ne_nil_of_lines (s : PyStr) (h : 4 ≤ (splitLines (pyStrip s)).length) :
    pyStrip s ≠ [] := by
  intro hs
  rw [hs] at h
  simp [splitLines] at h

theorem extract_match_ok {e : Except Unit (List FileChange)} {c? : Option Commit}
    {mk : List FileChange → Commit}
    (h : (match e with
          | .error err => Except.error err
          | .ok files => Except.ok (some (mk files))) = Except.ok c?) :
    ∃ files, e = .ok files ∧ c? = some (mk files) := by
  cases e with
  | error err => simp at h
  | ok files =>
    simp at h
    exact ⟨files, rfl, h.symm⟩

/-- C3 counterexample: a four-line block with no `Author:` label produces a
commit whose email is the block's third line, not the placeholder unknown
email the claim requires. -/
theorem C3_counterexample :
    ((getOk (extract_commit_info dpNone 0 ("deadbeef\nJohn Doe\nnot-an-email\n2024".data))
        none).map Commit.author_email) = some ("not-an-email".data)
    ∧ "not-an-email".data ≠ "unknown@example.com".data := ⟨by decide, by decide⟩

/-- C3 (amended): when the `Author:` label line is present in lines 1-3 but
the `Name <email>` pattern does not match, the commit is still produced with
the whole remainder as the name and the placeholder unknown-email; when the
label is absent (or strips to nothing, which is falsy in Python), the commit
is still produced, but with the block's second line as the name and its
third line — not the placeholder — as the email. -/
theorem C3_author_fallback (dp : DateParsers) (now : Int) (s : PyStr)
    (hlen : 4 ≤ (splitLines (pyStrip s)).length) :
    ((∀ l ∈ ((splitLines (pyStrip s)).drop 1).take 3,
        pyStartsWith ("Author:".data) l = false) →
      ∀ c?, extract_commit_info dp now s = .ok c? →
        ∃ c, c? = some c
          ∧ c.author_name = (splitLines (pyStrip s)).getD 1 []
          ∧ c.author_email = (splitLines (pyStrip s)).getD 2 [])
    ∧ (∀ al, (((splitLines (pyStrip s)).drop 1).take 3).find?
          (fun l => pyStartsWith ("Author:".data) l) = some al →
        pyStrip (al.drop 7) ≠ [] →
        authorMatch (pyStrip (al.drop 7)) = none →
        ∀ c?, extract_commit_info dp now s = .ok c? →
          ∃ c, c? = some c
            ∧ c.author_name = pyStrip (al.drop 7)
            ∧ c.author_email = "unknown@example.com".data)
    ∧ (∀ al, (((splitLines (pyStrip s)).drop 1).take 3).find?
          (fun l => pyStartsWith ("Author:".data) l) = some al →
        pyStrip (al.drop 7) = [] →
        ∀ c?, extract_commit_info dp now s = .ok c? →
          ∃ c, c? = some c
            ∧ c.author_name = (splitLines (pyStrip s)).getD 1 []
            ∧ c.author_email = (splitLines (pyStrip s)).getD 2 []) := by
  have hlt : ¬ ((splitLines (pyStrip s)).length < 4) := by omega
  have hhd : ¬ ((splitLines (pyStrip s)).headD [] = []) :=
    splitLines_pyStrip_head_ne s (pyStrip_ne_nil_of_lines s hlen)
  have h1 : 1 < (splitLines (pyStrip s)).length := by omega
  have h2 : 2 < (splitLines (pyStrip s)).length := by omega
  constructor
  · intro hno c? hok
    have hfind : (((splitLines (pyStrip s)).drop 1).take 3).find?
        (fun l => pyStartsWith ("Author:".data) l) = none := by
      rw [List.find?_eq_none]
      intro x hx
      simp [hno x hx]
    have ha : authorFields (splitLines (pyStrip s)) =
        ((splitLines (pyStrip s)).getD 1 [], (splitLines (pyStrip s)).getD 2 []) := by
      rw [authorFields]
      simp only [List.drop_one] at hfind
      simp [hfind, h1, h2]
    rw [extract_commit_info] at hok
    simp only [hlt, hhd, reduceIte] at hok
    obtain ⟨files, _, hc⟩ := extract_match_ok hok
    exact ⟨_, hc, by simp [ha], by simp [ha]⟩
  refine ⟨?_, ?_⟩
  · intro al hfind hne ham c? hok
    have ha : authorFields (splitLines (pyStrip s)) =
        (pyStrip (al.drop 7), "unknown@example.com".data) := by
      rw [authorFields]
      simp only [List.drop_one] at hfind
      simp [hfind, hne, ham]
    rw [extract_commit_info] at hok
    simp only [hlt, hhd, reduceIte] at hok
    obtain ⟨files, _, hc⟩ := extract_match_ok hok
    exact ⟨_, hc, by simp [ha], by simp [ha]⟩
  · intro al hfind hstrip c? hok
    have ha : authorFields (splitLines (pyStrip s)) =
        ((splitLines (pyStrip s)).getD 1 [], (splitLines (pyStrip s)).getD 2 []) := by
      rw [authorFields]
      simp only [List.drop_one] at hfind
      simp [hfind, hstrip, h1, h2]
    rw [extract_commit_info] at hok
    simp only [hlt, hhd, reduceIte] at hok
    obtain ⟨files, _, hc⟩ := extract_match_ok hok
    exact ⟨_, hc, by simp [ha], by simp [ha]⟩

/-- Witness for C3: a four-line block without an `Author:` label, and one
whose `Author:` line strips to the empty string. -/
theorem C3_author_fallback_witness :
    (4 ≤ (splitLines (pyStrip ("deadbeef\nJohn Doe\nnot-an-email\n2024".data))).length)
    ∧ (∀ l ∈ ((splitLines (pyStrip ("deadbeef\nJohn Doe\nnot-an-email\n2024".data))).drop 1).take 3,
        pyStartsWith ("Author:".data) l = false)
    ∧ (∃ c : Commit,
        getOk (extract_commit_info dpNone 0 ("deadbeef\nJohn Doe\nnot-an-email\n2024".data)) none
          = some c
        ∧ c.author_name =
            (splitLines (pyStrip ("deadbeef\nJohn Doe\nnot-an-email\n2024".data))).getD 1 []
        ∧ c.author_email =
            (splitLines (pyStrip ("deadbeef\nJohn Doe\nnot-an-email\n2024".data))).getD 2 [])
    ∧ (4 ≤ (splitLines (pyStrip ("deadbeef\nAuthor:   \nsomething\n2024".data))).length)
    ∧ ((((splitLines (pyStrip ("deadbeef\nAuthor:   \nsomething\n2024".data))).drop 1).take 3).find?
          (fun l => pyStartsWith ("Author:".data) l) = some ("Author:   ".data))
    ∧ (pyStrip (("Author:   ".data).drop 7) = [])
    ∧ (∃ c : Commit,
        getOk (extract_commit_info dpNone 0 ("deadbeef\nAuthor:   \nsomething\n2024".data)) none
          = some c
        ∧ c.author_name =
            (splitLines (pyStrip ("deadbeef\nAuthor:   \nsomething\n2024".data))).getD 1 []
        ∧ c.author_email =
            (splitLines (pyStrip ("deadbeef\nAuthor:   \nsomething\n2024".data))).getD 2 []) :=
  ⟨by decide, by decide,
   (C3_author_fallback dpNone 0 ("deadbeef\nJohn Doe\nnot-an-email\n2024".data) (by decide)).1
     (by decide)
     (getOk (extract_commit_info dpNone 0 ("deadbeef\nJohn Doe\nnot-an-email\n2024".data)) none)
     (by decide),
   by decide, by decide, by decide,
   (C3_author_fallback dpNone 0 ("deadbeef\nAuthor:   \nsomething\n2024".data) (by decide)).2.2
     ("Author:   ".data) (by decide) (by decide)
     (getOk (extract_commit_info dpNone 0 ("deadbeef\nAuthor:   \nsomething\n2024".data)) none)
     (by decide)⟩

theorem extract_match_ne_ok_none {e : Except Unit (List FileChange)}
    {mk : List FileChange → Commit} :
    (match e with
     | .error err => Except.error err
     | .ok files => Except.ok (some (mk files))) ≠ Except.ok (none : Option Commit) := by
  cases e <;> simp

/-- C4 counterexample: the four-line block `"a\nb\n\nc"` has only three
non-empty lines, yet it is not discarded — `extract_commit_info` produces a
commit for it, refuting "discarded exactly when fewer than 4 non-empty
lines". -/
theorem C4_counterexample :
    specNonEmptyLineCount ("a\nb\n\nc".data) = 3
    ∧ isOkSome (extract_commit_info dpNone 0 ("a\nb\n\nc".data)) = true :=
  ⟨by decide, by decide⟩

/-- Discard criterion of `extract_commit_info`: a block yields no commit
exactly when its stripped text splits into fewer than 4 lines. -/
theorem extract_discard_iff_lines (dp : DateParsers) (now : Int) (s : PyStr) :
    extract_commit_info dp now s = .ok none ↔ (splitLines (pyStrip s)).length < 4 := by
  constructor
  · intro h
    by_contra hge
    have hge4 : 4 ≤ (splitLines (pyStrip s)).length := by omega
    have hhd : ¬ ((splitLines (pyStrip s)).headD [] = []) :=
      splitLines_pyStrip_head_ne s (pyStrip_ne_nil_of_lines s hge4)
    rw [extract_commit_info] at h
    simp only [show ¬ ((splitLines (pyStrip s)).length < 4) by omega, hhd, reduceIte] at h
    exact absurd h extract_match_ne_ok_none
  · intro h
    rw [extract_commit_info]
    simp [h]

theorem parseBlocks_length (dp : DateParsers) (now : Int) :
    ∀ blocks : List PyStr,
      (∀ b ∈ blocks, isOkSome (extract_commit_info dp now (pyStrip b)) = true) →
      ∃ cs, parseBlocks dp now blocks = .ok cs ∧ cs.length = blocks.length := by
  intro blocks
  induction blocks with
  | nil => exact fun _ => ⟨[], rfl, rfl⟩
  | cons b bs ih =>
    intro h
    obtain ⟨cs, hcs, hlen⟩ := ih (fun x hx => h x (List.mem_cons_of_mem b hx))
    have hb := h b (List.mem_cons_self b bs)
    cases he : extract_commit_info dp now (pyStrip b) with
    | error err => rw [he] at hb; simp [isOkSome] at hb
    | ok c? =>
      cases c? with
      | none => rw [he] at hb; simp [isOkSome] at hb
      | some c =>
        refine ⟨c :: cs, ?_, by simp [hlen]⟩
        rw [parseBlocks]
        rw [he, hcs]
        rfl

theorem blocksOf_length (ls : List PyStr) :
    ∀ idxs : List Nat, (blocksOf ls idxs).length = idxs.length := by
  intro idxs
  induction idxs with
  | nil => rfl
  | cons i rest ih =>
    cases rest with
    | nil => rfl
    | cons j rest2 =>
      rw [blocksOf]
      simpa using ih

theorem enumFrom_filter_length (q : PyStr → Bool) :
    ∀ (n : Nat) (ls : List PyStr),
      ((List.enumFrom n ls).filter (fun p => q p.2)).length = (ls.filter q).length := by
  intro n ls
  induction ls generalizing n with
  | nil => rfl
  | cons a as ih =>
    rw [List.enumFrom_cons, List.filter_cons, List.filter_cons]
    by_cases hq : q a
    · simp only [hq, if_true]
      simp [ih (n + 1)]
    · simp only [hq]
      simp [ih (n + 1), hq]

theorem all_space_of_pyStrip_nil (s : PyStr) (h : pyStrip s = []) :
    ∀ c ∈ s, isPySpace c = true := by
  intro c hc
  unfold pyStrip at h
  have h2 : (s.dropWhile isPySpace).reverse.dropWhile isPySpace = [] := by
    rwa [List.reverse_eq_nil_iff] at h
  rw [List.dropWhile_eq_nil_iff] at h2
  have hall : ∀ x ∈ s.dropWhile isPySpace, isPySpace x = true := by
    intro x hx
    exact h2 x (List.mem_reverse.mpr hx)
  have hc2 : c ∈ s.takeWhile isPySpace ++ s.dropWhile isPySpace := by
    rw [List.takeWhile_append_dropWhile]
    exact hc
  rcases List.mem_append.mp hc2 with h3 | h3
  · exact List.mem_takeWhile_imp h3
  · exact hall c h3

theorem mem_splitLines_mem (s : PyStr) :
    ∀ l ∈ splitLines s, ∀ c ∈ l, c ∈ s := by
  induction s with
  | nil =>
    intro l hl c hc
    simp [splitLines] at hl
    subst hl
    simp at hc
  | cons a as ih =>
    intro l hl c hc
    rw [splitLines] at hl
    by_cases ha : a = '\n'
    · simp only [ha, if_true] at hl
      cases hl with
      | head => simp at hc
      | tail _ hl2 => exact List.mem_cons_of_mem a (ih l hl2 c hc)
    · simp only [ha, if_false] at hl
      cases hr : splitLines as with
      | nil => exact absurd hr (splitLines_ne_nil as)
      | cons hd tl =>
        rw [hr] at hl
        cases hl with
        | head =>
          cases hc with
          | head => exact List.mem_cons_self a as
          | tail _ hc2 =>
            exact List.mem_cons_of_mem a (ih hd (hr ▸ List.mem_cons_self hd tl) c hc2)
        | tail _ hl2 =>
          exact List.mem_cons_of_mem a
            (ih l (hr ▸ List.mem_cons_of_mem hd hl2) c hc)

theorem hex_not_space (c : Char) (h : (c.isDigit || ('a' ≤ c && c ≤ 'f')) = true) :
    isPySpace c = false := by
  by_contra hws
  have hws2 : isPySpace c = true := by
    cases hcc : isPySpace c
    · exact absurd hcc hws
    · rfl
  unfold isPySpace at hws2
  simp only [Bool.or_eq_true, decide_eq_true_eq] at hws2
  rcases hws2 with ((((h1 | h1) | h1) | h1) | h1) | h1 <;> (subst h1; simp_all)

theorem isHash40_false_of_space (l : PyStr) (hall : ∀ c ∈ l, isPySpace c = true) :
    isHash40 l = false := by
  by_contra hh
  have hh2 : isHash40 l = true := by
    cases hcc : isHash40 l
    · exact absurd hcc hh
    · rfl
  unfold isHash40 at hh2
  simp only [Bool.and_eq_true, beq_iff_eq, List.all_eq_true] at hh2
  obtain ⟨hlen, hhex⟩ := hh2
  cases l with
  | nil => simp at hlen
  | cons c cs =>
    have := hex_not_space c (hhex c (List.mem_cons_self c cs))
    rw [hall c (List.mem_cons_self c cs)] at this
    exact Bool.noConfusion this

/-- Output length of `parse_git_log` when every block parses. -/
theorem parse_length_of_valid_blocks (dp : DateParsers) (now : Int) (s : PyStr)
    (hval : ∀ b ∈ blocksOf (splitLines s)
        (((splitLines s).enum.filter (fun p => isHash40 p.2)).map Prod.fst),
      isOkSome (extract_commit_info dp now (pyStrip b)) = true) :
    ∃ cs, parse_git_log dp now s = .ok cs
      ∧ cs.length = ((splitLines s).filter isHash40).length := by
  by_cases hemp : (pyStrip s).isEmpty
  · refine ⟨[], ?_, ?_⟩
    · rw [parse_git_log]
      simp [hemp]
    · have hnil : (splitLines s).filter isHash40 = [] := by
        rw [List.filter_eq_nil]
        intro l hl
        have : isHash40 l = false :=
          isHash40_false_of_space l (fun c hc =>
            all_space_of_pyStrip_nil s (by simpa using hemp) c (mem_splitLines_mem s l hl c hc))
        simp [this]
      simp [hnil]
  · obtain ⟨cs, hcs, hlen⟩ := parseBlocks_length dp now _ hval
    refine ⟨cs, ?_, ?_⟩
    · rw [parse_git_log]
      simp only [hemp, if_false, Bool.false_eq_true]
      exact hcs
    · rw [hlen, blocksOf_length, List.length_map, List.enum]
      exact enumFrom_filter_length isHash40 0 (splitLines s)

/-- C4 (amended): a block is discarded (contributes no commit) exactly when
its stripped text splits into fewer than 4 lines — empty interior lines
count toward the 4, unlike the claim's "non-empty lines" — and for input
whose every boundary-delimited block parses to a commit, the parse output
length equals the number of recognized 40-hex boundary lines. -/
theorem C4_discard_iff_and_count (dp : DateParsers) (now : Int) (s : PyStr)
    (hval : ∀ b ∈ blocksOf (splitLines s)
        (((splitLines s).enum.filter (fun p => isHash40 p.2)).map Prod.fst),
      isOkSome (extract_commit_info dp now (pyStrip b)) = true) :
    (∀ b : PyStr,
      extract_commit_info dp now b = .ok none ↔ (splitLines (pyStrip b)).length < 4)
    ∧ ∃ cs, parse_git_log dp now s = .ok cs
        ∧ cs.length = ((splitLines s).filter isHash40).length :=
  ⟨fun b => extract_discard_iff_lines dp now b,
   parse_length_of_valid_blocks dp now s hval⟩

/-- Witness for C4 at a two-block log. -/
theorem C4_discard_iff_and_count_witness :
    (∀ b ∈ blocksOf
        (splitLines ("junk\naaaaaaaaaaaaaaaaaaaaaaaaaaaaaaaaaaaaaaaa\nAuthor: A <a@b>\nDate: x\n\nfirst\n\nbbbbbbbbbbbbbbbbbbbbbbbbbbbbbbbbbbbbbbbb\nAuthor: B <b@c>\nDate: y\n\nsecond\n".data))
        (((splitLines ("junk\naaaaaaaaaaaaaaaaaaaaaaaaaaaaaaaaaaaaaaaa\nAuthor: A <a@b>\nDate: x\n\nfirst\n\nbbbbbbbbbbbbbbbbbbbbbbbbbbbbbbbbbbbbbbbb\nAuthor: B <b@c>\nDate: y\n\nsecond\n".data)).enum.filter
            (fun p => isHash40 p.2)).map Prod.fst),
      isOkSome (extract_commit_info dpNone 0 (pyStrip b)) = true)
    ∧ ((∀ b : PyStr,
        extract_commit_info dpNone 0 b = .ok none ↔ (splitLines (pyStrip b)).length < 4)
      ∧ ∃ cs, parse_git_log dpNone 0
            ("junk\naaaaaaaaaaaaaaaaaaaaaaaaaaaaaaaaaaaaaaaa\nAuthor: A <a@b>\nDate: x\n\nfirst\n\nbbbbbbbbbbbbbbbbbbbbbbbbbbbbbbbbbbbbbbbb\nAuthor: B <b@c>\nDate: y\n\nsecond\n".data) = .ok cs
          ∧ cs.length = ((splitLines ("junk\naaaaaaaaaaaaaaaaaaaaaaaaaaaaaaaaaaaaaaaa\nAuthor: A <a@b>\nDate: x\n\nfirst\n\nbbbbbbbbbbbbbbbbbbbbbbbbbbbbbbbbbbbbbbbb\nAuthor: B <b@c>\nDate: y\n\nsecond\n".data)).filter isHash40).length) :=
  ⟨by decide, C4_discard_iff_and_count dpNone 0 _ (by decide)⟩

theorem le_foldl_max [LinearOrder α] :
    ∀ (l : List α) (a x : α), (x = a ∨ x ∈ l) → x ≤ l.foldl max a := by
  intro l
  induction l with
  | nil =>
    intro a x h
    rcases h with h | h
    · simp [h]
    · simp at h
  | cons b t ih =>
    intro a x h
    rw [List.foldl_cons]
    have hbase : max a b ≤ t.foldl max (max a b) := ih (max a b) (max a b) (Or.inl rfl)
    rcases h with h | h
    · exact le_trans (h ▸ le_max_left a b) hbase
    · rcases List.mem_cons.mp h with h | h
      · exact le_trans (h ▸ le_max_right a b) hbase
      · exact ih (max a b) x (Or.inr h)

theorem foldl_max_mem [LinearOrder α] :
    ∀ (l : List α) (a : α), l.foldl max a = a ∨ l.foldl max a ∈ l := by
  intro l
  induction l with
  | nil => intro a; exact Or.inl rfl
  | cons b t ih =>
    intro a
    rw [List.foldl_cons]
    rcases ih (max a b) with h | h
    · rcases max_choice a b with hm | hm
      · exact Or.inl (h.trans hm)
      · exact Or.inr (List.mem_cons.mpr (Or.inl (h.trans hm)))
    · exact Or.inr (List.mem_cons_of_mem b h)

theorem le_pyMaxD [LinearOrder α] (d : α) (l : List α) (x : α) (h : x ∈ l) :
    x ≤ pyMaxD d l := by
  cases l with
  | nil => simp at h
  | cons a t =>
    rcases List.mem_cons.mp h with h | h
    · exact le_foldl_max t a x (Or.inl h)
    · exact le_foldl_max t a x (Or.inr h)

theorem pyMaxD_mem [LinearOrder α] (d : α) (l : List α) (h : l ≠ []) :
    pyMaxD d l ∈ l := by
  cases l with
  | nil => exact absurd rfl h
  | cons a t =>
    rcases foldl_max_mem t a with h2 | h2
    · exact List.mem_cons.mpr (Or.inl h2)
    · exact List.mem_cons_of_mem a h2

theorem mem_longevityValues (metrics : List (String × AuthorStats)) (v : Int) :
    v ∈ longevityValues metrics ↔
      ∃ p ∈ metrics, ∃ f l : Int, p.2.first_commit_date = some f
        ∧ p.2.last_commit_date = some l ∧ v = spanDays f l := by
  unfold longevityValues
  rw [List.mem_filterMap]
  constructor
  · rintro ⟨p, hp, hv⟩
    cases hf : p.2.first_commit_date with
    | none => rw [hf] at hv; simp at hv
    | some f =>
      cases hl : p.2.last_commit_date with
      | none => rw [hf, hl] at hv; simp at hv
      | some l =>
        rw [hf, hl] at hv
        simp at hv
        exact ⟨p, hp, f, l, hf, hl, hv.symm⟩
  · rintro ⟨p, hp, f, l, hf, hl, hv⟩
    exact ⟨p, hp, by rw [hf, hl]; simp [hv]⟩

theorem normalize_eq_ok (metrics : List (String × AuthorStats))
    (hne : metrics.isEmpty = false)
    (hml : pyMaxD 1 (longevityValues metrics) ≠ 0) :
    normalize_metrics metrics = .ok (metrics.map (fun p =>
      (p.1, normalizeEntry (pyMaxD 1 (longevityValues metrics))
        (pyMaxD 1 (metrics.map (fun q => q.2.total_lines_added + q.2.total_lines_deleted)))
        (pyMaxD 1 (metrics.map (fun q => q.2.total_commits))) p.2))) := by
  rw [normalize_metrics]
  simp [hne, hml]

/-- C5 counterexample: with a reversed date pair the normalized longevity is
negative (outside [0,1]) even though every present recency value is in
[0,1]; and the author holding the maximum raw recency (0.5) receives
normalized recency 0.5, not 1.0, because recency is passed through. -/
theorem C5_counterexample :
    (normalize_metrics
        [("A", ⟨0, 0, 0, some 0, some 0, none⟩),
         ("B", ⟨0, 0, 0, some (3 * 86400), some 0, none⟩)] =
      .ok [("A", ⟨1, 0, 0, 0⟩), ("B", ⟨-2, 0, 0, 0⟩)]
     ∧ ¬ ((0 : ℚ) ≤ -2))
    ∧ (normalize_metrics [("A", ⟨0, 0, 0, none, none, some ((1 : ℚ) / 2)⟩)] =
        .ok [("A", ⟨0, 0, 0, (1 : ℚ) / 2⟩)]
       ∧ (1 : ℚ) / 2 ≠ 1) := by
  refine ⟨⟨?_, by norm_num⟩, ⟨?_, by norm_num⟩⟩
  · simp +decide [normalize_metrics, longevityValues, normalizeEntry, pyMaxD, spanDays]
    norm_num
  · simp +decide [normalize_metrics, longevityValues, normalizeEntry, pyMaxD, spanDays]

/-- C5 (amended): for every input whose present recency values lie in [0,1]
and whose present date pairs are ordered (first ≤ last), `normalize_metrics`
succeeds; every normalized metric lies in [0,1]; an author holding the
maximum raw value for longevity, lines, or commits receives 1.0 for that
metric when the maximum is positive; an all-zero lines or commits column
yields 0 instead of a division by zero; and recency is passed through
unchanged. -/
theorem C5_normalize_bounds (metrics : List (String × AuthorStats))
    (hrec : ∀ p ∈ metrics, ∀ q : ℚ, p.2.recency = some q → 0 ≤ q ∧ q ≤ 1)
    (hdate : ∀ p ∈ metrics, ∀ f l : Int, p.2.first_commit_date = some f →
      p.2.last_commit_date = some l → f ≤ l) :
    ∃ out, normalize_metrics metrics = .ok out
      ∧ (∀ p ∈ out,
          (0 ≤ p.2.longevity ∧ p.2.longevity ≤ 1)
          ∧ (0 ≤ p.2.lines ∧ p.2.lines ≤ 1)
          ∧ (0 ≤ p.2.commits ∧ p.2.commits ≤ 1)
          ∧ (0 ≤ p.2.recency ∧ p.2.recency ≤ 1))
      ∧ (∀ p ∈ metrics, ∀ f l : Int, p.2.first_commit_date = some f →
          p.2.last_commit_date = some l →
          (∀ q ∈ metrics, ∀ f' l' : Int, q.2.first_commit_date = some f' →
            q.2.last_commit_date = some l' → spanDays f' l' ≤ spanDays f l) →
          ∃ nm, (p.1, nm) ∈ out ∧ nm.longevity = 1)
      ∧ (∀ p ∈ metrics,
          0 < p.2.total_lines_added + p.2.total_lines_deleted →
          (∀ q ∈ metrics, q.2.total_lines_added + q.2.total_lines_deleted ≤
            p.2.total_lines_added + p.2.total_lines_deleted) →
          ∃ nm, (p.1, nm) ∈ out ∧ nm.lines = 1)
      ∧ (∀ p ∈ metrics, 0 < p.2.total_commits →
          (∀ q ∈ metrics, q.2.total_commits ≤ p.2.total_commits) →
          ∃ nm, (p.1, nm) ∈ out ∧ nm.commits = 1)
      ∧ ((∀ p ∈ metrics, p.2.total_lines_added + p.2.total_lines_deleted = 0) →
          ∀ p ∈ out, p.2.lines = 0)
      ∧ ((∀ p ∈ metrics, p.2.total_commits = 0) → ∀ p ∈ out, p.2.commits = 0)
      ∧ (∀ p ∈ metrics, ∃ nm, (p.1, nm) ∈ out ∧ nm.recency = p.2.recency.getD 0) := by
  cases hm : metrics with
  | nil =>
    refine ⟨[], by simp [normalize_metrics], ?_⟩
    simp
  | cons m0 mrest =>
  rw [← hm]
  have hne : metrics.isEmpty = false := by rw [hm]; rfl
  -- every longevity value is at least 1
  have hlv1 : ∀ v ∈ longevityValues metrics, 1 ≤ v := by
    intro v hv
    obtain ⟨p, hp, f, l, hf, hl, hvs⟩ := (mem_longevityValues metrics v).mp hv
    have hfl := hdate p hp f l hf hl
    have : (0 : Int) ≤ (l - f).fdiv 86400 :=
      Int.fdiv_nonneg (by omega) (by omega)
    rw [hvs]
    unfold spanDays
    omega
  -- the longevity maximum is at least 1 (so never the crash case)
  have hml1 : 1 ≤ pyMaxD 1 (longevityValues metrics) := by
    by_cases hl : longevityValues metrics = []
    · rw [hl]; simp [pyMaxD]
    · exact hlv1 _ (pyMaxD_mem 1 _ hl)
  have hml : pyMaxD 1 (longevityValues metrics) ≠ 0 := by omega
  refine ⟨_, normalize_eq_ok metrics hne hml, ?_, ?_, ?_, ?_, ?_, ?_, ?_⟩
  · -- bounds
    intro p hp
    obtain ⟨q, hq, hpe⟩ := List.mem_map.mp hp
    subst hpe
    refine ⟨?_, ?_, ?_, ?_⟩
    · -- longevity bounds
      unfold normalizeEntry
      cases hf : q.2.first_commit_date with
      | none => simp
      | some f =>
        cases hl : q.2.last_commit_date with
        | none => simp
        | some l =>
          simp only
          have hin : spanDays f l ∈ longevityValues metrics :=
            (mem_longevityValues metrics _).mpr ⟨q, hq, f, l, hf, hl, rfl⟩
          have h1s : 1 ≤ spanDays f l := hlv1 _ hin
          have hle : spanDays f l ≤ pyMaxD 1 (longevityValues metrics) :=
            le_pyMaxD 1 _ _ hin
          have hmlq : (0 : ℚ) < ((pyMaxD 1 (longevityValues metrics) : Int) : ℚ) :=
            Int.cast_pos.mpr (by omega)
          constructor
          · exact div_nonneg (Int.cast_nonneg.mpr (by omega)) (le_of_lt hmlq)
          · rw [div_le_one hmlq]
            exact Int.cast_le.mpr hle
    · -- lines bounds
      unfold normalizeEntry
      simp only
      by_cases hpos : pyMaxD 1 (metrics.map (fun r => r.2.total_lines_added + r.2.total_lines_deleted)) > 0
      · rw [if_pos hpos]
        have hin : q.2.total_lines_added + q.2.total_lines_deleted ∈
            metrics.map (fun r => r.2.total_lines_added + r.2.total_lines_deleted) :=
          List.mem_map.mpr ⟨q, hq, rfl⟩
        have hle := le_pyMaxD 1 _ _ hin
        have hmq : (0 : ℚ) <
            ((pyMaxD 1 (metrics.map (fun r => r.2.total_lines_added + r.2.total_lines_deleted)) : Nat) : ℚ) :=
          Nat.cast_pos.mpr hpos
        constructor
        · exact div_nonneg (by positivity) (le_of_lt hmq)
        · rw [div_le_one hmq]
          exact Nat.cast_le.mpr hle
      · rw [if_neg hpos]
        norm_num
    · -- commits bounds
      unfold normalizeEntry
      simp only
      by_cases hpos : pyMaxD 1 (metrics.map (fun r => r.2.total_commits)) > 0
      · rw [if_pos hpos]
        have hin : q.2.total_commits ∈ metrics.map (fun r => r.2.total_commits) :=
          List.mem_map.mpr ⟨q, hq, rfl⟩
        have hle := le_pyMaxD 1 _ _ hin
        have hmq : (0 : ℚ) < ((pyMaxD 1 (metrics.map (fun r => r.2.total_commits)) : Nat) : ℚ) :=
          Nat.cast_pos.mpr hpos
        constructor
        · exact div_nonneg (by positivity) (le_of_lt hmq)
        · rw [div_le_one hmq]
          exact Nat.cast_le.mpr hle
      · rw [if_neg hpos]
        norm_num
    · -- recency bounds
      unfold normalizeEntry
      simp only
      cases hr : q.2.recency with
      | none => simp
      | some rq =>
        simp only [Option.getD_some]
        exact hrec q hq rq hr
  · -- longevity max achiever
    intro p hp f l hf hl hmax
    refine ⟨normalizeEntry _ _ _ p.2, List.mem_map.mpr ⟨p, hp, rfl⟩, ?_⟩
    have hin : spanDays f l ∈ longevityValues metrics :=
      (mem_longevityValues metrics _).mpr ⟨p, hp, f, l, hf, hl, rfl⟩
    have hle : spanDays f l ≤ pyMaxD 1 (longevityValues metrics) := le_pyMaxD 1 _ _ hin
    have hge : pyMaxD 1 (longevityValues metrics) ≤ spanDays f l := by
      have hmem := pyMaxD_mem 1 (longevityValues metrics) (by
        intro hnil
        rw [hnil] at hin
        simp at hin)
      obtain ⟨r, hr, f', l', hf', hl', hv⟩ := (mem_longevityValues metrics _).mp hmem
      rw [hv]
      exact hmax r hr f' l' hf' hl'
    have heq : pyMaxD 1 (longevityValues metrics) = spanDays f l := le_antisymm hge hle
    unfold normalizeEntry
    rw [hf, hl]
    simp only [heq]
    have h1s : 1 ≤ spanDays f l := hlv1 _ hin
    rw [div_self (Int.cast_ne_zero.mpr (by omega : spanDays f l ≠ 0))]
  · -- lines max achiever
    intro p hp hpos hmax
    refine ⟨normalizeEntry _ _ _ p.2, List.mem_map.mpr ⟨p, hp, rfl⟩, ?_⟩
    have hin : p.2.total_lines_added + p.2.total_lines_deleted ∈
        metrics.map (fun r => r.2.total_lines_added + r.2.total_lines_deleted) :=
      List.mem_map.mpr ⟨p, hp, rfl⟩
    have hle := le_pyMaxD 1 _ _ hin
    have hge : pyMaxD 1 (metrics.map (fun r => r.2.total_lines_added + r.2.total_lines_deleted)) ≤
        p.2.total_lines_added + p.2.total_lines_deleted := by
      have hmem := pyMaxD_mem 1
        (metrics.map (fun r => r.2.total_lines_added + r.2.total_lines_deleted)) (by
          intro hnil
          rw [hnil] at hin
          simp at hin)
      obtain ⟨r, hr, hv⟩ := List.mem_map.mp hmem
      rw [← hv]
      exact hmax r hr
    have heq := le_antisymm hge hle
    unfold normalizeEntry
    simp only [heq]
    rw [if_pos hpos]
    rw [div_self (Nat.cast_ne_zero.mpr hpos.ne')]
  · -- commits max achiever
    intro p hp hpos hmax
    refine ⟨normalizeEntry _ _ _ p.2, List.mem_map.mpr ⟨p, hp, rfl⟩, ?_⟩
    have hin : p.2.total_commits ∈ metrics.map (fun r => r.2.total_commits) :=
      List.mem_map.mpr ⟨p, hp, rfl⟩
    have hle := le_pyMaxD 1 _ _ hin
    have hge : pyMaxD 1 (metrics.map (fun r => r.2.total_commits)) ≤ p.2.total_commits := by
      have hmem := pyMaxD_mem 1 (metrics.map (fun r => r.2.total_commits)) (by
        intro hnil
        rw [hnil] at hin
        simp at hin)
      obtain ⟨r, hr, hv⟩ := List.mem_map.mp hmem
      rw [← hv]
      exact hmax r hr
    have heq := le_antisymm hge hle
    unfold normalizeEntry
    simp only [heq]
    rw [if_pos hpos]
    rw [div_self (Nat.cast_ne_zero.mpr hpos.ne')]
  · -- all-zero lines yields 0
    intro hzero p hp
    obtain ⟨q, hq, hpe⟩ := List.mem_map.mp hp
    subst hpe
    unfold normalizeEntry
    simp only
    rw [hzero q hq]
    by_cases hpos : pyMaxD 1 (metrics.map (fun r => r.2.total_lines_added + r.2.total_lines_deleted)) > 0
    · rw [if_pos hpos]
      simp
    · rw [if_neg hpos]
  · -- all-zero commits yields 0
    intro hzero p hp
    obtain ⟨q, hq, hpe⟩ := List.mem_map.mp hp
    subst hpe
    unfold normalizeEntry
    simp only
    rw [hzero q hq]
    by_cases hpos : pyMaxD 1 (metrics.map (fun r => r.2.total_commits)) > 0
    · rw [if_pos hpos]
      simp
    · rw [if_neg hpos]
  · -- recency passthrough
    intro p hp
    exact ⟨normalizeEntry _ _ _ p.2, List.mem_map.mpr ⟨p, hp, rfl⟩, rfl⟩

/-- Witness for C5 at a one-author mapping with ordered dates and a present
recency value. -/
theorem C5_normalize_bounds_witness :
    (∀ p ∈ c5Metrics, ∀ q : ℚ, p.2.recency = some q → 0 ≤ q ∧ q ≤ 1)
    ∧ (∀ p ∈ c5Metrics, ∀ f l : Int, p.2.first_commit_date = some f →
        p.2.last_commit_date = some l → f ≤ l)
    ∧ (∃ out, normalize_metrics c5Metrics = .ok out
        ∧ (∀ p ∈ out,
            (0 ≤ p.2.longevity ∧ p.2.longevity ≤ 1)
            ∧ (0 ≤ p.2.lines ∧ p.2.lines ≤ 1)
            ∧ (0 ≤ p.2.commits ∧ p.2.commits ≤ 1)
            ∧ (0 ≤ p.2.recency ∧ p.2.recency ≤ 1))
        ∧ (∀ p ∈ c5Metrics, ∀ f l : Int, p.2.first_commit_date = some f →
            p.2.last_commit_date = some l →
            (∀ q ∈ c5Metrics, ∀ f' l' : Int, q.2.first_commit_date = some f' →
              q.2.last_commit_date = some l' → spanDays f' l' ≤ spanDays f l) →
            ∃ nm, (p.1, nm) ∈ out ∧ nm.longevity = 1)
        ∧ (∀ p ∈ c5Metrics,
            0 < p.2.total_lines_added + p.2.total_lines_deleted →
            (∀ q ∈ c5Metrics, q.2.total_lines_added + q.2.total_lines_deleted ≤
              p.2.total_lines_added + p.2.total_lines_deleted) →
            ∃ nm, (p.1, nm) ∈ out ∧ nm.lines = 1)
        ∧ (∀ p ∈ c5Metrics, 0 < p.2.total_commits →
            (∀ q ∈ c5Metrics, q.2.total_commits ≤ p.2.total_commits) →
            ∃ nm, (p.1, nm) ∈ out ∧ nm.commits = 1)
        ∧ ((∀ p ∈ c5Metrics, p.2.total_lines_added + p.2.total_lines_deleted = 0) →
            ∀ p ∈ out, p.2.lines = 0)
        ∧ ((∀ p ∈ c5Metrics, p.2.total_commits = 0) → ∀ p ∈ out, p.2.commits = 0)
        ∧ (∀ p ∈ c5Metrics, ∃ nm, (p.1, nm) ∈ out ∧ nm.recency = p.2.recency.getD 0)) := by
  have hrec : ∀ p ∈ c5Metrics, ∀ q : ℚ, p.2.recency = some q → 0 ≤ q ∧ q ≤ 1 := by
    intro p hp q hq
    simp only [c5Metrics, List.mem_singleton] at hp
    subst hp
    simp only [Option.some.injEq] at hq
    subst hq
    norm_num
  have hdate : ∀ p ∈ c5Metrics, ∀ f l : Int, p.2.first_commit_date = some f →
      p.2.last_commit_date = some l → f ≤ l := by
    intro p hp f l hf hl
    simp only [c5Metrics, List.mem_singleton] at hp
    subst hp
    simp only [Option.some.injEq] at hf hl
    omega
  exact ⟨hrec, hdate, C5_normalize_bounds c5Metrics hrec hdate⟩

theorem mem_insertDesc (x y : String × ℚ × NormMetrics) :
    ∀ l, y ∈ insertDesc x l ↔ y = x ∨ y ∈ l := by
  intro l
  induction l with
  | nil => simp [insertDesc]
  | cons h t ih =>
    rw [insertDesc]
    by_cases hc : h.2.1 ≤ x.2.1
    · simp only [hc, if_true]
      constructor
      · intro hy
        rcases List.mem_cons.mp hy with hy | hy
        · exact Or.inl hy
        · exact Or.inr hy
      · intro hy
        rcases hy with hy | hy
        · exact List.mem_cons.mpr (Or.inl hy)
        · exact List.mem_cons_of_mem x hy
    · simp only [hc, if_false]
      constructor
      · intro hy
        rcases List.mem_cons.mp hy with hy | hy
        · exact Or.inr (List.mem_cons.mpr (Or.inl hy))
        · rcases ih.mp hy with hy | hy
          · exact Or.inl hy
          · exact Or.inr (List.mem_cons_of_mem h hy)
      · intro hy
        rcases hy with hy | hy
        · exact List.mem_cons_of_mem h (ih.mpr (Or.inl hy))
        · rcases List.mem_cons.mp hy with hy | hy
          · exact List.mem_cons.mpr (Or.inl hy)
          · exact List.mem_cons_of_mem h (ih.mpr (Or.inr hy))

theorem insertDesc_pairwise (x : String × ℚ × NormMetrics) :
    ∀ l, List.Pairwise (fun u v => v.2.1 ≤ u.2.1) l →
      List.Pairwise (fun u v => v.2.1 ≤ u.2.1) (insertDesc x l) := by
  intro l
  induction l with
  | nil => intro _; simp [insertDesc]
  | cons h t ih =>
    intro hp
    rw [List.pairwise_cons] at hp
    obtain ⟨hh, ht⟩ := hp
    rw [insertDesc]
    by_cases hc : h.2.1 ≤ x.2.1
    · simp only [hc, if_true]
      rw [List.pairwise_cons]
      refine ⟨?_, List.pairwise_cons.mpr ⟨hh, ht⟩⟩
      intro y hy
      rcases List.mem_cons.mp hy with hy | hy
      · rw [hy]; exact hc
      · exact le_trans (hh y hy) hc
    · simp only [hc, if_false]
      rw [List.pairwise_cons]
      refine ⟨?_, ih ht⟩
      intro y hy
      rcases (mem_insertDesc x y t).mp hy with hy | hy
      · rw [hy]; exact le_of_not_le hc
      · exact hh y hy

theorem sortDesc_pairwise :
    ∀ l, List.Pairwise (fun u v => v.2.1 ≤ u.2.1) (sortDesc l) := by
  intro l
  induction l with
  | nil => simp [sortDesc]
  | cons x xs ih =>
    rw [sortDesc]
    exact insertDesc_pairwise x (sortDesc xs) ih

theorem insertDesc_filter (x : String × ℚ × NormMetrics) (s : ℚ) :
    ∀ l, (insertDesc x l).filter (fun e => decide (e.2.1 = s)) =
      if x.2.1 = s then x :: l.filter (fun e => decide (e.2.1 = s))
      else l.filter (fun e => decide (e.2.1 = s)) := by
  intro l
  induction l with
  | nil =>
    rw [insertDesc]
    by_cases hx : x.2.1 = s
    · simp [hx]
    · simp [hx]
  | cons h t ih =>
    rw [insertDesc]
    by_cases hc : h.2.1 ≤ x.2.1
    · simp only [hc, if_true]
      by_cases hx : x.2.1 = s
      · simp [List.filter_cons, hx]
      · simp [List.filter_cons, hx]
    · simp only [hc, if_false]
      by_cases hx : x.2.1 = s
      · have hhs : ¬ (h.2.1 = s) := by
          intro hh
          exact hc (by rw [hh, hx])
        simp only [List.filter_cons, hhs, decide_eq_true_eq, if_false, ih, hx, if_true]
      · simp only [List.filter_cons, ih, hx, if_false, decide_eq_true_eq]

theorem sortDesc_filter (s : ℚ) :
    ∀ l, (sortDesc l).filter (fun e => decide (e.2.1 = s)) =
      l.filter (fun e => decide (e.2.1 = s)) := by
  intro l
  induction l with
  | nil => simp [sortDesc]
  | cons x xs ih =>
    rw [sortDesc, insertDesc_filter]
    by_cases hx : x.2.1 = s
    · simp [List.filter_cons, hx, ih]
    · simp [List.filter_cons, hx, ih]

theorem mem_sortDesc (y : String × ℚ × NormMetrics) :
    ∀ l, y ∈ sortDesc l ↔ y ∈ l := by
  intro l
  induction l with
  | nil => simp [sortDesc]
  | cons x xs ih =>
    rw [sortDesc, mem_insertDesc]
    constructor
    · intro h
      rcases h with h | h
      · exact List.mem_cons.mpr (Or.inl h)
      · exact List.mem_cons_of_mem x (ih.mp h)
    · intro h
      rcases List.mem_cons.mp h with h | h
      · exact Or.inl h
      · exact Or.inr (ih.mpr h)

theorem bumpCounts_lookup_ne (b : String) (isRec : Bool) (a : String) (hne : b ≠ a) :
    ∀ counts : List (String × Nat × Nat),
      (bumpCounts counts b isRec).lookup a = counts.lookup a := by
  have hab : (a == b) = false := beq_eq_false_iff_ne.mpr (Ne.symm hne)
  intro counts
  induction counts with
  | nil =>
    rw [bumpCounts]
    simp [List.lookup, hab]
  | cons p rest ih =>
    obtain ⟨k, t, r⟩ := p
    rw [bumpCounts]
    by_cases hk : k = b
    · subst hk
      simp [List.lookup, hab]
    · simp only [hk, if_false]
      by_cases hak : (a == k) = true
      · simp [List.lookup, hak]
      · simp only [Bool.not_eq_true] at hak
        simp [List.lookup, hak, ih]

theorem bumpCounts_lookup_self (b : String) (isRec : Bool) :
    ∀ counts : List (String × Nat × Nat),
      (bumpCounts counts b isRec).lookup b =
        some (((counts.lookup b).getD (0, 0)).1 + 1,
              ((counts.lookup b).getD (0, 0)).2 + (if isRec then 1 else 0)) := by
  intro counts
  induction counts with
  | nil =>
    rw [bumpCounts]
    simp [List.lookup]
  | cons p rest ih =>
    obtain ⟨k, t, r⟩ := p
    rw [bumpCounts]
    by_cases hk : k = b
    · subst hk
      simp [List.lookup]
    · have hbk : (b == k) = false := beq_eq_false_iff_ne.mpr (fun h => hk h.symm)
      simp only [hk, if_false]
      simp [List.lookup, hbk, ih]

theorem foldl_bump_lookup (reference cutoff : Int) (a : String) :
    ∀ (commits : List RCommit) (counts : List (String × Nat × Nat)),
      ((commits.foldl (fun cts c =>
          bumpCounts cts c.author (decide (c.date.getD reference ≥ cutoff))) counts).lookup a) =
        match counts.lookup a with
        | some (t, r) => some (t + totalFor commits a,
                               r + recentFor commits reference cutoff a)
        | none =>
          if totalFor commits a = 0 then none
          else some (totalFor commits a, recentFor commits reference cutoff a) := by
  intro commits
  induction commits with
  | nil =>
    intro counts
    simp only [List.foldl_nil, totalFor, recentFor, List.filter_nil, List.length_nil]
    cases h : counts.lookup a with
    | none => simp
    | some tr => obtain ⟨t, r⟩ := tr; simp
  | cons c rest ih =>
    intro counts
    rw [List.foldl_cons]
    rw [ih]
    by_cases hca : c.author = a
    · have htot : totalFor (c :: rest) a = totalFor rest a + 1 := by
        simp [totalFor, List.filter_cons, hca, Nat.add_comm]
      have hrec : recentFor (c :: rest) reference cutoff a =
          recentFor rest reference cutoff a
            + (if decide (c.date.getD reference ≥ cutoff) then 1 else 0) := by
        by_cases hd : c.date.getD reference ≥ cutoff
        · simp [recentFor, List.filter_cons, hca, hd, Nat.add_comm]
        · simp [recentFor, List.filter_cons, hca, hd]
      subst hca
      rw [bumpCounts_lookup_self]
      cases h : counts.lookup c.author with
      | none =>
        simp only [h, Option.getD_none]
        rw [htot, hrec]
        simp [Nat.add_comm]
      | some tr =>
        obtain ⟨t, r⟩ := tr
        simp only [h, Option.getD_some]
        rw [htot, hrec]
        refine congrArg some (Prod.ext ?_ ?_) <;> omega
    · have htot : totalFor (c :: rest) a = totalFor rest a := by
        simp [totalFor, List.filter_cons, hca]
      have hrec : recentFor (c :: rest) reference cutoff a =
          recentFor rest reference cutoff a := by
        simp [recentFor, List.filter_cons, hca]
      rw [bumpCounts_lookup_ne c.author _ a hca]
      rw [htot, hrec]

theorem recencyCounts_lookup (commits : List RCommit) (reference cutoff : Int) (a : String) :
    (recencyCounts commits reference cutoff).lookup a =
      if totalFor commits a = 0 then none
      else some (totalFor commits a, recentFor commits reference cutoff a) := by
  rw [recencyCounts, foldl_bump_lookup]
  simp [List.lookup]

theorem lookup_map_keyed {β γ : Type _} (F : String → β → γ) (a : String) :
    ∀ l : List (String × β),
      (l.map (fun p => (p.1, F p.1 p.2))).lookup a = (l.lookup a).map (F a) := by
  intro l
  induction l with
  | nil => simp [List.lookup]
  | cons p rest ih =>
    obtain ⟨k, v⟩ := p
    by_cases hk : (a == k) = true
    · have : a = k := beq_iff_eq.mp hk
      subst this
      simp [List.lookup]
    · simp only [Bool.not_eq_true] at hk
      simp [List.lookup, hk, ih]

theorem calc_recency_lookup (commits : List RCommit) (months now : Int) (a : String)
    (hne : commits ≠ []) :
    (calculate_recency_score commits months now).lookup a =
      ((recencyCounts commits (pyMaxD now (commits.filterMap RCommit.date))
          (recencyCutoff (pyMaxD now (commits.filterMap RCommit.date)) months)).lookup a).map
        (fun tr =>
          if tr.1 > 0 then
            if months = 1 && (a = aliceKey || a = bobKey) then
              if a = aliceKey then (1 : ℚ) / 3 else (1 : ℚ) / 2
            else (tr.2 : ℚ) / (tr.1 : ℚ)
          else 0) := by
  rw [calculate_recency_score]
  have hie : commits.isEmpty = false := by
    cases commits with
    | nil => exact absurd rfl hne
    | cons c cs => rfl
  simp only [hie, Bool.false_eq_true, if_false]
  exact lookup_map_keyed (fun k (tr : Nat × Nat) =>
    if tr.1 > 0 then
      if months = 1 && (k = aliceKey || k = bobKey) then
        if k = aliceKey then (1 : ℚ) / 3 else (1 : ℚ) / 2
      else (tr.2 : ℚ) / (tr.1 : ℚ)
    else 0) a _

theorem recency_lookup_symm (commits : List RCommit) (months now : Int) (a b : String)
    (hne : commits ≠ [])
    (ht : totalFor commits a = totalFor commits b)
    (hr : ∀ ref cut : Int, recentFor commits ref cut a = recentFor commits ref cut b)
    (hhack : months ≠ 1 ∨ (a ≠ aliceKey ∧ a ≠ bobKey ∧ b ≠ aliceKey ∧ b ≠ bobKey)) :
    (calculate_recency_score commits months now).lookup a =
      (calculate_recency_score commits months now).lookup b := by
  rw [calc_recency_lookup commits months now a hne, calc_recency_lookup commits months now b hne]
  rw [recencyCounts_lookup, recencyCounts_lookup]
  rw [← ht, ← hr]
  by_cases h0 : totalFor commits a = 0
  · simp [h0]
  · simp only [h0, if_false, Option.map_some]
    have hhacka : (months = 1 && (a = aliceKey || a = bobKey)) = false := by
      rcases hhack with h | ⟨h1, h2, _, _⟩
      · simp [h]
      · simp [h1, h2]
    have hhackb : (months = 1 && (b = aliceKey || b = bobKey)) = false := by
      rcases hhack with h | ⟨_, _, h3, h4⟩
      · simp [h]
      · simp [h3, h4]
    simp [hhacka, hhackb]

theorem synthOne_author (c : String) (m : AuthorStats) :
    ∀ rc ∈ synthOne c m, rc.author = c := by
  intro rc hrc
  unfold synthOne at hrc
  by_cases h0 : m.total_commits = 0
  · simp [h0] at hrc
  · simp only [h0, if_false] at hrc
    cases hl : m.last_commit_date with
    | some l =>
      rw [hl] at hrc
      by_cases h1 : m.total_commits - 1 > 0
      · simp only [h1, if_true] at hrc
        cases hf : m.first_commit_date with
        | some f =>
          rw [hf] at hrc
          rcases List.mem_cons.mp hrc with hrc | hrc
          · rw [hrc]
          · rcases List.mem_cons.mp hrc with hrc | hrc
            · rw [hrc]
            · simp at hrc
        | none =>
          rw [hf] at hrc
          rcases List.mem_cons.mp hrc with hrc | hrc
          · rw [hrc]
          · simp at hrc
      · simp only [h1, if_false] at hrc
        rcases List.mem_cons.mp hrc with hrc | hrc
        · rw [hrc]
        · simp at hrc
    | none =>
      rw [hl] at hrc
      by_cases h1 : m.total_commits > 0
      · simp only [h1, if_true] at hrc
        cases hf : m.first_commit_date with
        | some f =>
          rw [hf] at hrc
          rcases List.mem_cons.mp hrc with hrc | hrc
          · rw [hrc]
          · simp at hrc
        | none =>
          rw [hf] at hrc
          simp at hrc
      · simp only [h1, if_false] at hrc
        simp at hrc

theorem synthOne_filter_author (c : String) (m : AuthorStats) (a : String) :
    (synthOne c m).filter (fun rc => decide (rc.author = a)) =
      if c = a then synthOne c m else [] := by
  by_cases hca : c = a
  · rw [if_pos hca]
    apply List.filter_eq_self.mpr
    intro rc hrc
    simp [synthOne_author c m rc hrc, hca]
  · rw [if_neg hca]
    apply List.filter_eq_nil.mpr
    intro rc hrc
    simp [synthOne_author c m rc hrc, hca]

theorem synthOne_same_shape (c c' : String) (m : AuthorStats) :
    (synthOne c m).map RCommit.date = (synthOne c' m).map RCommit.date := by
  unfold synthOne
  by_cases h0 : m.total_commits = 0
  · simp [h0]
  · simp only [h0, if_false]
    cases hl : m.last_commit_date with
    | some l =>
      by_cases h1 : m.total_commits - 1 > 0
      · simp only [h1, if_true]
        cases hf : m.first_commit_date <;> simp
      · simp [h1]
    | none =>
      by_cases h1 : m.total_commits > 0
      · simp only [h1, if_true]
        cases hf : m.first_commit_date <;> simp
      · simp [h1]

theorem foldl_append_synth (stats : List (String × AuthorStats)) :
    ∀ acc : List RCommit,
      stats.foldl (fun a p => a ++ synthOne p.1 p.2) acc =
        acc ++ stats.foldr (fun p r => synthOne p.1 p.2 ++ r) [] := by
  induction stats with
  | nil => intro acc; simp
  | cons p rest ih =>
    intro acc
    rw [List.foldl_cons, List.foldr_cons, ih]
    simp [List.append_assoc]

theorem syntheticCommits_eq (stats : List (String × AuthorStats)) :
    syntheticCommits stats = stats.foldr (fun p r => synthOne p.1 p.2 ++ r) [] := by
  rw [syntheticCommits, foldl_append_synth]
  simp

theorem nodup_key_unique {β : Type _} :
    ∀ (l : List (String × β)), (l.map Prod.fst).Nodup →
      ∀ (a : String) (x y : β), (a, x) ∈ l → (a, y) ∈ l → x = y := by
  intro l
  induction l with
  | nil => intro _ a x y hx; simp at hx
  | cons p rest ih =>
    intro hnd a x y hx hy
    rw [List.map_cons, List.nodup_cons] at hnd
    obtain ⟨hp, hrest⟩ := hnd
    rcases List.mem_cons.mp hx with hx | hx <;> rcases List.mem_cons.mp hy with hy | hy
    · have hxy : (a, x) = (a, y) := hx.trans hy.symm
      exact ((Prod.mk.injEq _ _ _ _).mp hxy).2
    · exfalso
      apply hp
      rw [← hx]
      exact List.mem_map.mpr ⟨(a, y), hy, rfl⟩
    · exfalso
      apply hp
      rw [← hy]
      exact List.mem_map.mpr ⟨(a, x), hx, rfl⟩
    · exact ih hrest a x y hx hy

theorem mem_foldr_synth (rc : RCommit) :
    ∀ stats : List (String × AuthorStats),
      rc ∈ stats.foldr (fun p r => synthOne p.1 p.2 ++ r) [] ↔
        ∃ q ∈ stats, rc ∈ synthOne q.1 q.2 := by
  intro stats
  induction stats with
  | nil => simp
  | cons p rest ih =>
    rw [List.foldr_cons, List.mem_append, ih]
    constructor
    · rintro (h | ⟨q, hq, hrc⟩)
      · exact ⟨p, List.mem_cons_self p rest, h⟩
      · exact ⟨q, List.mem_cons_of_mem p hq, hrc⟩
    · rintro ⟨q, hq, hrc⟩
      rcases List.mem_cons.mp hq with hq | hq
      · exact Or.inl (hq ▸ hrc)
      · exact Or.inr ⟨q, hq, hrc⟩

theorem synth_filter_author (stats : List (String × AuthorStats)) (a : String)
    (M : AuthorStats) (hnd : (stats.map Prod.fst).Nodup) (hmem : (a, M) ∈ stats) :
    (syntheticCommits stats).filter (fun rc => decide (rc.author = a)) = synthOne a M := by
  rw [syntheticCommits_eq]
  induction stats with
  | nil => simp at hmem
  | cons p rest ih =>
    rw [List.map_cons, List.nodup_cons] at hnd
    obtain ⟨hp, hrest⟩ := hnd
    rw [List.foldr_cons, List.filter_append]
    rcases List.mem_cons.mp hmem with hm | hm
    · have hpa : p = (a, M) := hm.symm
      subst hpa
      rw [synthOne_filter_author]
      simp only [if_pos rfl]
      have hrestnil : (rest.foldr (fun p r => synthOne p.1 p.2 ++ r) []).filter
          (fun rc => decide (rc.author = a)) = [] := by
        apply List.filter_eq_nil.mpr
        intro rc hrc
        obtain ⟨q, hq, hrcq⟩ := (mem_foldr_synth rc rest).mp hrc
        have hauth := synthOne_author q.1 q.2 rc hrcq
        have hqa : q.1 ≠ a := by
          intro hqa
          apply hp
          rw [← hqa]
          exact List.mem_map.mpr ⟨q, hq, rfl⟩
        simp [hauth, hqa]
      rw [hrestnil]
      simp
    · have hpa : p.1 ≠ a := by
        intro hpa
        apply hp
        rw [hpa]
        exact List.mem_map.mpr ⟨(a, M), hm, rfl⟩
      rw [synthOne_filter_author]
      simp only [hpa, if_false]
      rw [List.nil_append]
      exact ih hrest hm

theorem synthetic_totals_eq (stats : List (String × AuthorStats)) (a b : String)
    (M : AuthorStats) (hnd : (stats.map Prod.fst).Nodup)
    (ha : (a, M) ∈ stats) (hb : (b, M) ∈ stats) :
    totalFor (syntheticCommits stats) a = totalFor (syntheticCommits stats) b
    ∧ ∀ ref cut : Int, recentFor (syntheticCommits stats) ref cut a =
        recentFor (syntheticCommits stats) ref cut b := by
  have hfa := synth_filter_author stats a M hnd ha
  have hfb := synth_filter_author stats b M hnd hb
  have hshape := synthOne_same_shape a b M
  constructor
  · rw [totalFor, totalFor, hfa, hfb]
    have := congrArg List.length hshape
    simpa using this
  · intro ref cut
    rw [recentFor, recentFor, hfa, hfb]
    have h1 : ((synthOne a M).filter (fun c => decide (c.date.getD ref ≥ cut))).length =
        (((synthOne a M).map RCommit.date).filter (fun d => decide (d.getD ref ≥ cut))).length := by
      rw [List.filter_map, List.length_map]
      rfl
    have h2 : ((synthOne b M).filter (fun c => decide (c.date.getD ref ≥ cut))).length =
        (((synthOne b M).map RCommit.date).filter (fun d => decide (d.getD ref ≥ cut))).length := by
      rw [List.filter_map, List.length_map]
      rfl
    rw [h1, h2, hshape]

theorem calc_score_keys (metrics : List (String × NormMetrics)) (ws : Option Weights) :
    (calculate_contributor_score metrics ws).map Prod.fst = metrics.map Prod.fst := by
  rw [calculate_contributor_score]
  by_cases h : metrics.isEmpty
  · rw [List.isEmpty_iff] at h
    simp [h]
  · simp only [h, Bool.false_eq_true, if_false]
    simp

theorem rawRanking_keys (normalized : List (String × NormMetrics)) (w : Weights) :
    (rawRanking normalized w).map Prod.fst = normalized.map Prod.fst := by
  rw [rawRanking]
  rw [List.map_map]
  exact calc_score_keys normalized (some w)

theorem writeRecency_keys (stats : List (String × AuthorStats)) (rs : List (String × ℚ)) :
    (writeRecency stats rs).map Prod.fst = stats.map Prod.fst := by
  rw [writeRecency, List.map_map]
  rfl

theorem normalize_ok_eq (m : List (String × AuthorStats)) (out : List (String × NormMetrics))
    (h : normalize_metrics m = .ok out) :
    out = m.map (fun p => (p.1,
      normalizeEntry (pyMaxD 1 (longevityValues m))
        (pyMaxD 1 (m.map (fun q => q.2.total_lines_added + q.2.total_lines_deleted)))
        (pyMaxD 1 (m.map (fun q => q.2.total_commits))) p.2)) := by
  rw [normalize_metrics] at h
  by_cases he : m.isEmpty
  · rw [List.isEmpty_iff] at he
    subst he
    simp at h
    simp [← h]
  · simp only [he, Bool.false_eq_true, if_false] at h
    by_cases hml : pyMaxD 1 (longevityValues m) = 0
    · simp [hml] at h
    · simp only [hml, if_false, Except.ok.injEq] at h
      exact h.symm

theorem normalize_ok_keys (m : List (String × AuthorStats)) (out : List (String × NormMetrics))
    (h : normalize_metrics m = .ok out) :
    out.map Prod.fst = m.map Prod.fst := by
  rw [normalize_ok_eq m out h, List.map_map]
  rfl

theorem rankUnsorted_ok_shape (stats : List (String × AuthorStats)) (w : Option Weights)
    (months now : Int) (raw : List (String × ℚ × NormMetrics))
    (hu : (rankUnsorted stats w months now).2 = .ok raw) (hne : stats.isEmpty = false) :
    ∃ normalized, normalize_metrics
        (writeRecency stats
          (calculate_recency_score (syntheticCommits stats) months now)) = .ok normalized
      ∧ raw = rawRanking normalized (w.getD DEFAULT_WEIGHTS) := by
  rw [rankUnsorted] at hu
  simp only [hne, Bool.false_eq_true, if_false] at hu
  cases hn : normalize_metrics
      (writeRecency stats (calculate_recency_score (syntheticCommits stats) months now)) with
  | error e => rw [hn] at hu; simp at hu
  | ok normalized =>
    rw [hn] at hu
    simp at hu
    exact ⟨normalized, rfl, hu.symm⟩

/-- C7 (amended): the ranking returned by `rank_contributors` is sorted in
descending order of score; the sort is stable — for every score value, the
subsequence of entries carrying that score equals the corresponding
subsequence of the unsorted ranking, whose authors appear in
input-iteration order; and, for a stats mapping with distinct author keys,
two authors with identical raw stats receive identical scores, provided the
window is not the hardcoded one-month special case for the author strings
`aliceKey`/`bobKey`. -/
theorem C7_rank_sorted_stable (stats : List (String × AuthorStats)) (w : Option Weights)
    (months now : Int) (r : List (String × ℚ × NormMetrics))
    (hok : (rank_contributors stats w months now).2 = .ok r) :
    List.Pairwise (fun u v => v.2.1 ≤ u.2.1) r
    ∧ (∀ raw, (rankUnsorted stats w months now).2 = .ok raw →
        (∀ s : ℚ, r.filter (fun e => decide (e.2.1 = s)) =
          raw.filter (fun e => decide (e.2.1 = s)))
        ∧ raw.map Prod.fst = stats.map Prod.fst)
    ∧ ((stats.map Prod.fst).Nodup →
        ∀ (a b : String) (M : AuthorStats), (a, M) ∈ stats → (b, M) ∈ stats →
        (months ≠ 1 ∨ (a ≠ aliceKey ∧ a ≠ bobKey ∧ b ≠ aliceKey ∧ b ≠ bobKey)) →
        ∀ sa nma sb nmb, (a, sa, nma) ∈ r → (b, sb, nmb) ∈ r → sa = sb) := by
  rw [rank_contributors] at hok
  simp only at hok
  cases hu : (rankUnsorted stats w months now).2 with
  | error e => rw [hu] at hok; simp [Except.map] at hok
  | ok raw0 =>
  rw [hu] at hok
  simp only [Except.map, Except.ok.injEq] at hok
  have hr : r = sortDesc raw0 := hok.symm
  refine ⟨hr ▸ sortDesc_pairwise raw0, ?_, ?_⟩
  · intro raw hraw
    simp only [Except.ok.injEq] at hraw
    subst hraw
    constructor
    · intro s
      rw [hr]
      exact sortDesc_filter s raw0
    · by_cases hse : stats.isEmpty
      · rw [List.isEmpty_iff] at hse
        subst hse
        rw [rankUnsorted] at hu
        simp at hu
        simp [← hu]
      · obtain ⟨normalized, hn, hrw⟩ := rankUnsorted_ok_shape stats w months now raw0 hu
          (by cases hx : stats.isEmpty; rfl; exact absurd hx hse)
        rw [hrw, rawRanking_keys, normalize_ok_keys _ _ hn, writeRecency_keys]
  · intro hnd a b M hma hmb hhack sa nma sb nmb hsa hsb
    have hse : stats.isEmpty = false := by
      cases stats with
      | nil => simp at hma
      | cons p rest => rfl
    obtain ⟨normalized, hn, hrw⟩ := rankUnsorted_ok_shape stats w months now raw0 hu hse
    set rs := calculate_recency_score (syntheticCommits stats) months now with hrs
    set stats2 := writeRecency stats rs with hstats2
    set ML := pyMaxD 1 (longevityValues stats2) with hML
    set MLi := pyMaxD 1 (stats2.map
      (fun q => q.2.total_lines_added + q.2.total_lines_deleted)) with hMLi
    set MC := pyMaxD 1 (stats2.map (fun q => q.2.total_commits)) with hMC
    set wts := w.getD DEFAULT_WEIGHTS with hwts
    have hlook : rs.lookup a = rs.lookup b := by
      by_cases hsc : syntheticCommits stats = []
      · rw [hrs, hsc]
        rfl
      · obtain ⟨ht, hrcnt⟩ := synthetic_totals_eq stats a b M hnd hma hmb
        exact recency_lookup_symm (syntheticCommits stats) months now a b hsc ht hrcnt hhack
    have hnormeq := normalize_ok_eq _ _ hn
    have hnne : normalized.isEmpty = false := by
      rw [hnormeq]
      cases stats with
      | nil => simp at hma
      | cons p rest => simp [hstats2, writeRecency]
    have hscore : ∀ (x : String) (Mx : AuthorStats) (sx : ℚ) (nmx : NormMetrics),
        (x, Mx) ∈ stats → (x, sx, nmx) ∈ r →
        sx =
          metricContribution wts.longevity
              (normalizeEntry ML MLi MC
                { Mx with recency := some ((rs.lookup x).getD 0) }).longevity
            + metricContribution wts.lines
              (normalizeEntry ML MLi MC
                { Mx with recency := some ((rs.lookup x).getD 0) }).lines
            + metricContribution wts.commits
              (normalizeEntry ML MLi MC
                { Mx with recency := some ((rs.lookup x).getD 0) }).commits
            + metricContribution wts.recency
              (normalizeEntry ML MLi MC
                { Mx with recency := some ((rs.lookup x).getD 0) }).recency := by
      intro x Mx sx nmx hmx hrx
      rw [hr, mem_sortDesc, hrw, rawRanking] at hrx
      obtain ⟨q, hq, hqe⟩ := List.mem_map.mp hrx
      have hq1 : q.1 = x := congrArg (fun t => t.1) hqe
      have hq2 : q.2 = sx := congrArg (fun t => t.2.1) hqe
      rw [calculate_contributor_score] at hq
      simp only [hnne, Bool.false_eq_true, if_false] at hq
      obtain ⟨pn, hpn, hpne⟩ := List.mem_map.mp hq
      rw [hnormeq] at hpn
      obtain ⟨ps, hps, hpse⟩ := List.mem_map.mp hpn
      rw [hstats2, writeRecency] at hps
      obtain ⟨pst, hpst, hpste⟩ := List.mem_map.mp hps
      have hpst1 : pst.1 = x := by
        have e1 : ps.1 = pn.1 := congrArg (fun t => t.1) hpse
        have e2 : pn.1 = q.1 := congrArg (fun t => t.1) hpne
        have e3 : pst.1 = ps.1 := congrArg (fun t => t.1) hpste
        rw [e3, e1, e2, hq1]
      have hpstM : pst.2 = Mx := by
        apply nodup_key_unique stats hnd x pst.2 Mx _ hmx
        have : pst = (x, pst.2) := by
          rw [← hpst1]
        rw [← this]
        exact hpst
      have hps2 : ps.2 = { Mx with recency := some ((rs.lookup x).getD 0) } := by
        have : ps.2 = { pst.2 with recency := some ((rs.lookup pst.1).getD 0) } :=
          (congrArg (fun t => t.2) hpste).symm
        rw [this, hpstM, hpst1]
      have hpn2 : pn.2 = normalizeEntry ML MLi MC
          { Mx with recency := some ((rs.lookup x).getD 0) } := by
        have : pn.2 = normalizeEntry ML MLi MC ps.2 := (congrArg (fun t => t.2) hpse).symm
        rw [this, hps2]
      rw [← hq2]
      have : q.2 = metricContribution wts.longevity pn.2.longevity
          + metricContribution wts.lines pn.2.lines
          + metricContribution wts.commits pn.2.commits
          + metricContribution wts.recency pn.2.recency :=
        (congrArg (fun t => t.2) hpne).symm
      rw [this, hpn2]
    have hsaeq := hscore a M sa nma hma hsa
    have hsbeq := hscore b M sb nmb hmb hsb
    rw [hsaeq, hsbeq, hlook]

theorem C7_counterexample :
    ((getOk (rank_contributors
        [(aliceKey, c7M), ("Carol <carol@example.com>", c7M)] none 1 0).2 []).map
          (fun e => (e.1, e.2.1))) =
      [("Carol <carol@example.com>", (7 : ℚ) / 10), (aliceKey, (19 : ℚ) / 30)]
    ∧ (7 : ℚ) / 10 ≠ (19 : ℚ) / 30 := by
  constructor
  · simp +decide [rank_contributors, rankUnsorted, c7M, syntheticCommits, synthOne,
      writeRecency, calculate_recency_score, recencyCounts, bumpCounts, recencyCutoff, pyMaxD,
      normalize_metrics, longevityValues, normalizeEntry, spanDays, rawRanking,
      calculate_contributor_score, metricContribution, DEFAULT_WEIGHTS,
      Except.map, sortDesc, insertDesc, aliceKey, bobKey, List.lookup, getOk]
    norm_num [sortDesc, insertDesc, getOk]
  · norm_num

theorem c7W_rank_eval :
    (rank_contributors [("X", c7W)] none 3 0).2 =
      .ok [("X", (1 : ℚ) / 5, ⟨0, 0, 1, 0⟩)] := by
  simp +decide [rank_contributors, rankUnsorted, c7W, syntheticCommits, synthOne,
    writeRecency, calculate_recency_score, recencyCounts, bumpCounts, recencyCutoff, pyMaxD,
    normalize_metrics, longevityValues, normalizeEntry, spanDays, rawRanking,
    calculate_contributor_score, metricContribution, DEFAULT_WEIGHTS,
    Except.map, sortDesc, insertDesc, aliceKey, bobKey, List.lookup]

/-- Witness for C7 at a one-author stats mapping. -/
theorem C7_rank_sorted_stable_witness :
    ((rank_contributors [("X", c7W)] none 3 0).2 =
        .ok [("X", (1 : ℚ) / 5, ⟨0, 0, 1, 0⟩)])
    ∧ (List.Pairwise (fun u v => v.2.1 ≤ u.2.1)
          [(("X" : String), (1 : ℚ) / 5, (⟨0, 0, 1, 0⟩ : NormMetrics))]
        ∧ (∀ raw, (rankUnsorted [("X", c7W)] none 3 0).2 = .ok raw →
            (∀ s : ℚ, [(("X" : String), (1 : ℚ) / 5,
                (⟨0, 0, 1, 0⟩ : NormMetrics))].filter (fun e => decide (e.2.1 = s)) =
              raw.filter (fun e => decide (e.2.1 = s)))
            ∧ raw.map Prod.fst = [("X", c7W)].map Prod.fst)
        ∧ (([("X", c7W)].map Prod.fst).Nodup →
            ∀ (a b : String) (M : AuthorStats),
            (a, M) ∈ [("X", c7W)] → (b, M) ∈ [("X", c7W)] →
            ((3 : Int) ≠ 1 ∨ (a ≠ aliceKey ∧ a ≠ bobKey ∧ b ≠ aliceKey ∧ b ≠ bobKey)) →
            ∀ sa nma sb nmb,
              (a, sa, nma) ∈ [(("X" : String), (1 : ℚ) / 5, (⟨0, 0, 1, 0⟩ : NormMetrics))] →
              (b, sb, nmb) ∈ [(("X" : String), (1 : ℚ) / 5, (⟨0, 0, 1, 0⟩ : NormMetrics))] →
              sa = sb)) :=
  ⟨c7W_rank_eval, C7_rank_sorted_stable [("X", c7W)] none 3 0 _ c7W_rank_eval⟩
